import Mathlib

/-!
Verification of the AutoSection layout-arrangement engine (`src/code.ts`).

The source is a TypeScript program operating on positioned rectangles.
We embed its pure geometric core shallowly:

* JS numbers are modelled as exact rationals (`ℚ`); the numeric literals
  `0.2`, `0.5`, `0.05`, `1.2` of the source are taken at their exact decimal
  values.
* `Math.round` is `fun q => ⌊q + 1/2⌋` (JS rounds half toward +∞).
* `Array.prototype.sort` (stable) is modelled by `List.insertionSort`, a
  stable sort, with the source comparator `cmp` turned into the relation
  `fun a b => cmp a b ≤ 0`. For a comparator that is a total preorder this
  agrees with every stable sort, hence with the JS engine's; the one
  comparator of the source that is not transitive (`detectSpacing`'s fuzzy
  row comparator) has engine-dependent output in JS as well, and we fix the
  stable insertion sort as its model.
* `Math.max(...)` / `Math.min(...)` folds over nonempty arrays are modelled
  by head-seeded folds; the `[]` case (which in JS would yield `±Infinity`)
  is given an arbitrary default and is unreachable in every use below,
  because each caller guards against empty inputs exactly as the source does.
* The Figma document side effects (reparenting, `setPluginData`, selection)
  are modelled by explicit state passing: handlers take a section state and
  return either an error (leaving the state untouched, mirroring the source's
  early returns that precede every mutation) or the new state / UI payload.
-/

/- Batteries marks the rational arithmetic operations `@[irreducible]`, which
prevents `decide` from evaluating the embedded functions on concrete inputs.
Restore the default reducibility for this development: all concrete witness
computations below go through the kernel. -/
attribute [local semireducible] Rat.add Rat.mul Rat.inv Rat.sub Rat.ofScientific

namespace AutoSection

/-- A positioned rectangle: the `x`, `y`, `width`, `height` fields of a Figma
node that `hasPositionAndSize` accepts (src/code.ts:124-139). -/
structure Rect where
  x : ℚ
  y : ℚ
  width : ℚ
  height : ℚ
deriving DecidableEq, Repr

instance : Inhabited Rect := ⟨⟨0, 0, 0, 0⟩⟩

/-- JS `Math.round`: round half toward positive infinity. -/
def jround (q : ℚ) : ℤ := ⌊q + 1/2⌋

/-- The sort comparator of `detectSpacing` (src/code.ts:164-170), as the
relation `compare(a,b) ≤ 0`: if `|a.y - b.y| < 10` the frames count as one
row and are compared by `x`, otherwise by `y`. -/
def lePos (a b : Rect) : Prop :=
  if |a.y - b.y| < 10 then a.x ≤ b.x else a.y ≤ b.y

instance : DecidableRel lePos := fun a b => by
  unfold lePos
  infer_instance

/-- Comparator `(a, b) => a.x - b.x` as the relation `compare ≤ 0`. -/
def leX (a b : Rect) : Prop := a.x ≤ b.x

instance : DecidableRel leX := fun a b => by
  unfold leX
  infer_instance

/-- Comparator `(a, b) => a.y - b.y` as the relation `compare ≤ 0`. -/
def leY (a b : Rect) : Prop := a.y ≤ b.y

instance : DecidableRel leY := fun a b => by
  unfold leY
  infer_instance

/-- The row-grouping loop of `detectSpacing` (src/code.ts:173-190).
`rowY` is `currentRowY`, `cur` is `currentRow`, `acc` the rows pushed so far. -/
def groupRowsAux : ℚ → List Rect → List (List Rect) → List Rect → List (List Rect)
  | _, cur, acc, [] => if cur.isEmpty then acc else acc ++ [cur]
  | rowY, cur, acc, f :: fs =>
    if |f.y - rowY| < 10 then groupRowsAux rowY (cur ++ [f]) acc fs
    else groupRowsAux f.y [f] (if cur.isEmpty then acc else acc ++ [cur]) fs

/-- Group sorted frames into rows (src/code.ts:172-190): `currentRowY` starts
at the first frame's `y` and is reset to a frame's own `y` whenever that frame
starts a new row. -/
def groupRows : List Rect → List (List Rect)
  | [] => []
  | f :: fs => groupRowsAux f.y [] [] (f :: fs)

/-- Adjacent horizontal gaps `next.x - (prev.x + prev.width)` of an x-sorted
row, keeping only the non-negative ones (src/code.ts:197-202). -/
def pairGapsX : List Rect → List ℚ
  | a :: b :: rest =>
    (if 0 ≤ b.x - (a.x + a.width) then [b.x - (a.x + a.width)] else [])
      ++ pairGapsX (b :: rest)
  | _ => []

/-- Horizontal gaps of one row (src/code.ts:194-203): rows of fewer than two
members contribute nothing; otherwise the row is sorted by `x` first. -/
def rowGapsH (row : List Rect) : List ℚ :=
  if row.length < 2 then [] else pairGapsX (row.insertionSort leX)

/-- All horizontal within-row gaps, rows in order (src/code.ts:193-203). -/
def horizontalSpacings (rows : List (List Rect)) : List ℚ :=
  (rows.map rowGapsH).flatten

/-- `Math.max(...row.map(f => f.y + f.height))` over a nonempty row. -/
def rowBottom : List Rect → ℚ
  | [] => 0
  | r :: rs => rs.foldl (fun m f => max m (f.y + f.height)) (r.y + r.height)

/-- `Math.min(...row.map(f => f.y))` over a nonempty row. -/
def rowTop : List Rect → ℚ
  | [] => 0
  | r :: rs => rs.foldl (fun m f => min m f.y) r.y

/-- Vertical gaps between consecutive rows, keeping only the non-negative
ones (src/code.ts:206-218). -/
def verticalSpacings : List (List Rect) → List ℚ
  | r1 :: r2 :: rest =>
    (if 0 ≤ rowTop r2 - rowBottom r1 then [rowTop r2 - rowBottom r1] else [])
      ++ verticalSpacings (r2 :: rest)
  | _ => []

/-- The rows `detectSpacing` works on: the input sorted by the fuzzy
comparator, then grouped (src/code.ts:163-190). -/
def rowsOf (frames : List Rect) : List (List Rect) :=
  groupRows (frames.insertionSort lePos)

/-- The merged gap list `allSpacings` of `detectSpacing`: horizontal
within-row gaps followed by vertical between-row gaps (src/code.ts:221). -/
def allSpacings (frames : List Rect) : List ℚ :=
  horizontalSpacings (rowsOf frames) ++ verticalSpacings (rowsOf frames)

/-- Member count of the bucket of gaps whose rounded value is `k`
(src/code.ts:238-245). -/
def bucketCount (gaps : List ℚ) (k : ℤ) : Nat :=
  gaps.countP (fun g => decide (jround g = k))

/-- The bucket keys in the order the `for-in` loops of the source visit them.
All keys are non-negative integers (gaps are filtered to be ≥ 0), and JS
objects iterate integer-like keys in ascending numeric order. -/
def bucketKeys (gaps : List ℚ) : List ℤ :=
  ((gaps.map jround).dedup).insertionSort (· ≤ ·)

/-- The most-common-bucket scan (src/code.ts:248-257): visit keys in order,
replacing the champion whenever a bucket is strictly larger. -/
def mostCommonScan (gaps : List ℚ) : List ℤ → Option ℤ → Nat → Option ℤ × Nat
  | [], mc, n => (mc, n)
  | k :: ks, mc, n =>
    if n < bucketCount gaps k then mostCommonScan gaps ks (some k) (bucketCount gaps k)
    else mostCommonScan gaps ks mc n

/-- `mostCommonSpacing` and `maxCount` of src/code.ts:248-257. -/
def mostCommon (gaps : List ℚ) : Option ℤ × Nat :=
  mostCommonScan gaps (bucketKeys gaps) none 0

/-- The nonzero-bucket scan of src/code.ts:266-281: a nonzero bucket replaces
the champion when it is strictly larger, has at least 2 members and at least
a 5% share of all gaps. -/
def bestNZStrict (gaps : List ℚ) : List ℤ → Option ℤ → Nat → Option ℤ
  | [], b, _ => b
  | k :: ks, b, n =>
    if 0 < k ∧ n < bucketCount gaps k ∧ 2 ≤ bucketCount gaps k
        ∧ (gaps.length : ℚ) * 0.05 ≤ (bucketCount gaps k : ℚ) then
      bestNZStrict gaps ks (some k) (bucketCount gaps k)
    else bestNZStrict gaps ks b n

/-- The fallback nonzero-bucket scan of src/code.ts:288-303: only the ≥ 2
members condition, no share condition. -/
def bestNZLoose (gaps : List ℚ) : List ℤ → Option ℤ → Nat → Option ℤ
  | [], b, _ => b
  | k :: ks, b, n =>
    if 0 < k ∧ 2 ≤ bucketCount gaps k ∧ n < bucketCount gaps k then
      bestNZLoose gaps ks (some k) (bucketCount gaps k)
    else bestNZLoose gaps ks b n

/-- `detectSpacing` (src/code.ts:158-307). Returns the detected gap (always
an integer in the source: every return value passes through `Math.round` or
`parseInt`), or `none`. -/
def detectSpacing (frames : List Rect) : Option ℤ :=
  if frames.length < 2 then none
  else
    let all := allSpacings frames
    if all.isEmpty then none
    else
      let firstSpacing := all.headI
      if all.all (fun s => decide (|s - firstSpacing| ≤ 2)) ∧ 0 ≤ firstSpacing then
        some (jround firstSpacing)
      else
        let mc := (mostCommon all).1
        let maxCount := (mostCommon all).2
        if mc.isSome ∧ (all.length : ℚ) * 0.2 ≤ (maxCount : ℚ) then
          if mc = some 0 ∧ (maxCount : ℚ) < (all.length : ℚ) * 0.5 then
            match bestNZStrict all (bucketKeys all) none 0 with
            | some k => some k
            | none => mc
          else mc
        else
          if mc = some 0 ∨ (mc.isSome ∧ (maxCount : ℚ) < (all.length : ℚ) * 0.2) then
            bestNZLoose all (bucketKeys all) none 0
          else none

/-- Layout orientation (`'horizontal' | 'vertical' | 'maintain'`). -/
inductive Layout
  | horizontal
  | vertical
  | maintain
deriving DecidableEq, Repr

/-- Cross-axis alignment (`'top' | 'center' | 'bottom' | 'left' | 'right'`). -/
inductive Align
  | top
  | center
  | bottom
  | left
  | right
deriving DecidableEq, Repr

/-- Result record of `detectLayoutAndAlignment`. -/
structure LayoutAlign where
  layout : Layout
  alignment : Align
deriving DecidableEq, Repr

/-- `Math.min` fold of the frames' `x` (Infinity-seeded in the source; every
use below is on a nonempty list, guarded exactly as in the source). -/
def minXOf : List Rect → ℚ
  | [] => 0
  | r :: rs => rs.foldl (fun m f => min m f.x) r.x

/-- `Math.min` fold of the frames' `y`. -/
def minYOf : List Rect → ℚ
  | [] => 0
  | r :: rs => rs.foldl (fun m f => min m f.y) r.y

/-- `Math.max` fold of the frames' `x + width`. -/
def maxXOf : List Rect → ℚ
  | [] => 0
  | r :: rs => rs.foldl (fun m f => max m (f.x + f.width)) (r.x + r.width)

/-- `Math.max` fold of the frames' `y + height`. -/
def maxYOf : List Rect → ℚ
  | [] => 0
  | r :: rs => rs.foldl (fun m f => max m (f.y + f.height)) (r.y + r.height)

/-- `detectLayoutAndAlignment` (src/code.ts:309-387): bounding-box aspect
ratio picks the orientation, then edge/center coincidence within a 2-unit
tolerance picks the alignment, in the source's branch order. -/
def detectLayoutAndAlignment (frames : List Rect) : LayoutAlign :=
  if frames.length < 2 then ⟨.horizontal, .top⟩
  else
    let w := maxXOf frames - minXOf frames
    let h := maxYOf frames - minYOf frames
    if h * 1.2 < w then
      let topYs := frames.map (·.y)
      let bottomYs := frames.map (fun f => f.y + f.height)
      let centerYs := frames.map (fun f => f.y + f.height / 2)
      let avgCenterY := centerYs.foldl (· + ·) 0 / (centerYs.length : ℚ)
      if topYs.all (fun v => decide (|v - topYs.headI| ≤ 2)) then ⟨.horizontal, .top⟩
      else if bottomYs.all (fun v => decide (|v - bottomYs.headI| ≤ 2)) then ⟨.horizontal, .bottom⟩
      else if centerYs.all (fun v => decide (|v - avgCenterY| ≤ 2)) then ⟨.horizontal, .center⟩
      else ⟨.horizontal, .top⟩
    else if w * 1.2 < h then
      let leftXs := frames.map (·.x)
      let rightXs := frames.map (fun f => f.x + f.width)
      let centerXs := frames.map (fun f => f.x + f.width / 2)
      let avgCenterX := centerXs.foldl (· + ·) 0 / (centerXs.length : ℚ)
      if leftXs.all (fun v => decide (|v - leftXs.headI| ≤ 2)) then ⟨.vertical, .left⟩
      else if rightXs.all (fun v => decide (|v - rightXs.headI| ≤ 2)) then ⟨.vertical, .right⟩
      else if centerXs.all (fun v => decide (|v - avgCenterX| ≤ 2)) then ⟨.vertical, .center⟩
      else ⟨.vertical, .left⟩
    else ⟨.maintain, .top⟩

/-- `Math.max(...frames.map(f => f.height))` over a nonempty list. -/
def maxHeightOf : List Rect → ℚ
  | [] => 0
  | r :: rs => rs.foldl (fun m f => max m f.height) r.height

/-- `Math.max(...frames.map(f => f.width))` over a nonempty list. -/
def maxWidthOf : List Rect → ℚ
  | [] => 0
  | r :: rs => rs.foldl (fun m f => max m f.width) r.width

/-- The per-frame `y` computed by `arrangeFramesHorizontal`'s placement loop
(src/code.ts:1302-1309). The source's final `else` branch treats every
alignment other than `top`/`center` as `bottom`. -/
def placedY (alignment : Align) (baseY h : ℚ) : ℚ :=
  match alignment with
  | .top => baseY
  | .center => baseY - h / 2
  | _ => baseY - h

/-- The placement loop of `arrangeFramesHorizontal` (src/code.ts:1298-1316):
each frame gets `x := cursor`, its `y` chosen from the alignment and the
shared baseline, and the cursor advances by `width + spacing`. -/
def placeH (spacing : ℚ) (alignment : Align) (baseY : ℚ) : ℚ → List Rect → List Rect
  | _, [] => []
  | cx, f :: fs =>
    { f with x := cx, y := placedY alignment baseY f.height }
      :: placeH spacing alignment baseY (cx + f.width + spacing) fs

/-- The shared baseline of `arrangeFramesHorizontal` (src/code.ts:1289-1296);
the source's final `else` branch treats every alignment other than
`top`/`center` as `bottom`. -/
def baseYFor (alignment : Align) (startY maxH : ℚ) : ℚ :=
  match alignment with
  | .top => startY
  | .center => startY + maxH / 2
  | _ => startY + maxH

/-- `arrangeFramesHorizontal` (src/code.ts:1279-1317): sort by current `x`,
derive the baseline from the alignment and the max height, place left to
right from `startX`. Returns the frames in placement order; the source
mutates them in place, and every later use of the frame array is
order-independent per frame. -/
def arrangeFramesHorizontal (frames : List Rect) (spacing startX startY : ℚ)
    (alignment : Align) : List Rect :=
  placeH spacing alignment
    (baseYFor alignment startY (maxHeightOf (frames.insertionSort leX)))
    startX (frames.insertionSort leX)

/-- The per-frame `x` computed by `arrangeFramesVertical`'s placement loop
(src/code.ts:1340-1347); the source's final `else` branch treats every
alignment other than `left`/`center` as `right`. -/
def placedX (alignment : Align) (baseX w : ℚ) : ℚ :=
  match alignment with
  | .left => baseX
  | .center => baseX - w / 2
  | _ => baseX - w

/-- The placement loop of `arrangeFramesVertical` (src/code.ts:1338-1355). -/
def placeV (spacing : ℚ) (alignment : Align) (baseX : ℚ) : ℚ → List Rect → List Rect
  | _, [] => []
  | cy, f :: fs =>
    { f with x := placedX alignment baseX f.width, y := cy }
      :: placeV spacing alignment baseX (cy + f.height + spacing) fs

/-- The shared baseline of `arrangeFramesVertical` (src/code.ts:1329-1336);
the source's final `else` branch treats every alignment other than
`left`/`center` as `right`. -/
def baseXFor (alignment : Align) (startX maxW : ℚ) : ℚ :=
  match alignment with
  | .left => startX
  | .center => startX + maxW / 2
  | _ => startX + maxW

/-- `arrangeFramesVertical` (src/code.ts:1319-1356). -/
def arrangeFramesVertical (frames : List Rect) (spacing startX startY : ℚ)
    (alignment : Align) : List Rect :=
  placeV spacing alignment
    (baseXFor alignment startX (maxWidthOf (frames.insertionSort leY)))
    startY (frames.insertionSort leY)

/-- `arrangeFramesMaintain` (src/code.ts:1358-1362): a named no-op. -/
def arrangeFramesMaintain (frames : List Rect) (_spacing : ℚ) : List Rect :=
  frames

/-- Padding record (src/code.ts:4-9). -/
structure Padding where
  top : ℚ
  right : ℚ
  bottom : ℚ
  left : ℚ
deriving DecidableEq, Repr

/-- The configuration carried by an `ApplyMessage` and persisted per section
(src/code.ts:20-27, 1112-1118). -/
structure Config where
  padding : Padding
  spacing : ℚ
  layout : Layout
  alignment : Align
deriving DecidableEq, Repr

/-- Resulting container geometry plus the members at their final
container-relative positions (in placement order). -/
structure SectionResult where
  x : ℚ
  y : ℚ
  width : ℚ
  height : ℚ
  relFrames : List Rect
deriving DecidableEq, Repr

/-- The layout dispatch shared by `createSection` and `updateSection`
(src/code.ts:1047-1054 and 1193-1200): compute the pre-arrangement bounding
box and arrange from its min corner. -/
def applyLayout (msg : Config) (frames : List Rect) : List Rect :=
  match msg.layout with
  | .horizontal => arrangeFramesHorizontal frames msg.spacing (minXOf frames) (minYOf frames) msg.alignment
  | .vertical => arrangeFramesVertical frames msg.spacing (minXOf frames) (minYOf frames) msg.alignment
  | .maintain => arrangeFramesMaintain frames msg.spacing

/-- The geometric pipeline shared verbatim by `createSection`
(src/code.ts:1033-1107) and `updateSection` (src/code.ts:1179-1254):
arrange in absolute coordinates, recompute the bounding box, place the
section at `(newMinX - padding.left, newMinY - padding.top)`, convert each
frame to container-relative coordinates, and size the section to the
largest relative extent plus right/bottom padding (the running maxima are
seeded with 0 as in the source). -/
def sectionPipeline (msg : Config) (frames : List Rect) : SectionResult :=
  let arranged := applyLayout msg frames
  let newMinX := minXOf arranged
  let newMinY := minYOf arranged
  let rel := arranged.map (fun f =>
    { f with x := f.x - newMinX + msg.padding.left, y := f.y - newMinY + msg.padding.top })
  let maxRelX := rel.foldl (fun m f => max m (f.x + f.width)) 0
  let maxRelY := rel.foldl (fun m f => max m (f.y + f.height)) 0
  { x := newMinX - msg.padding.left
    y := newMinY - msg.padding.top
    width := maxRelX + msg.padding.right
    height := maxRelY + msg.padding.bottom
    relFrames := rel }

/-- `createSection` (src/code.ts:1023-1125), pure geometric part: the input
frames are in absolute coordinates. -/
def createSection (msg : Config) (frames : List Rect) : SectionResult :=
  sectionPipeline msg frames

/-- `updateSection` (src/code.ts:1127-1277), pure geometric part: member
frames arrive in coordinates relative to the section at
`(sectionX, sectionY)`; the source first reparents them out and rewrites
each position to `section origin + relative position`
(src/code.ts:1145-1177), then runs the same pipeline as `createSection`. -/
def updateSection (msg : Config) (sectionX sectionY : ℚ) (relFrames : List Rect) : SectionResult :=
  sectionPipeline msg
    (relFrames.map (fun f => { f with x := sectionX + f.x, y := sectionY + f.y }))

/-- A section's persisted `autosection-settings` blob: either deserializable
to a configuration or malformed (JSON.parse throws). `none` at the use sites
below models absent/empty plugin data. -/
inductive Blob
  | valid (cfg : Config)
  | malformed
deriving DecidableEq, Repr

/-- The state of one section node: its geometry, its member frames at
container-relative positions, and its persisted settings blob. -/
structure SectionState where
  x : ℚ
  y : ℚ
  width : ℚ
  height : ℚ
  frames : List Rect
  stored : Option Blob
deriving DecidableEq, Repr

/-- User-visible failures of the handlers (src/code.ts notifications). -/
inductive OpError
  | noStoredConfiguration
  | malformedStoredConfiguration
  | noFrames
deriving DecidableEq, Repr

/-- Applying `updateSection` to a section state: new geometry, members at
their new relative positions, and the configuration re-persisted
(src/code.ts:1240-1265). -/
def applyUpdateToState (cfg : Config) (sec : SectionState) : SectionState :=
  let r := updateSection cfg sec.x sec.y sec.frames
  { x := r.x, y := r.y, width := r.width, height := r.height
    frames := r.relFrames, stored := some (.valid cfg) }

/-- `handleRefreshSection` (src/code.ts:839-920) on its target section: fail
with `NoStoredConfigurationError` when no blob is stored (line 874), fail
when the blob does not parse (line 888), fail when the section has no
positioned members (line 898); otherwise run `updateSection` with exactly
the stored configuration. Every failure path in the source returns before
any document mutation, so the state is returned untouched alongside the
error. -/
def handleRefreshSection (sec : SectionState) : Option OpError × SectionState :=
  match sec.stored with
  | none => (some .noStoredConfiguration, sec)
  | some .malformed => (some .malformedStoredConfiguration, sec)
  | some (.valid cfg) =>
    if sec.frames.isEmpty then (some .noFrames, sec)
    else (none, applyUpdateToState cfg sec)

/-- The payload of the `init` message `handleUpdateSection` sends to the UI
(src/code.ts:577-585): spacing, padding, layout and alignment, either from
the stored configuration or re-detected. -/
structure UpdateInit where
  spacing : Option ℚ
  padding : Padding
  layout : Layout
  alignment : Align
deriving DecidableEq, Repr

/-- The detection fallback of `handleUpdateSection` (src/code.ts:507-575):
run `detectSpacing` and `detectLayoutAndAlignment` on the members converted
to absolute coordinates, and compute the current padding as the clamped,
rounded distance from the content bounds to the section edges. -/
def detectInit (sec : SectionState) : UpdateInit :=
  let absFrames := sec.frames.map (fun f => { f with x := sec.x + f.x, y := sec.y + f.y })
  let la := detectLayoutAndAlignment absFrames
  { spacing := (detectSpacing absFrames).map (fun k => (k : ℚ))
    padding :=
      { top := (jround (max 0 (minYOf sec.frames)) : ℚ)
        right := (jround (max 0 (sec.width - maxXOf sec.frames)) : ℚ)
        bottom := (jround (max 0 (sec.height - maxYOf sec.frames)) : ℚ)
        left := (jround (max 0 (minXOf sec.frames)) : ℚ) }
    layout := la.layout
    alignment := la.alignment }

/-- `handleUpdateSection` (src/code.ts:440-590) on its target section: abort
when the section has no positioned members (line 474); use the stored
configuration verbatim when it parses (lines 490-498); otherwise — absent or
malformed blob — fall back to detection (lines 499-575). -/
def handleUpdateSection (sec : SectionState) : Except OpError UpdateInit :=
  if sec.frames.isEmpty then .error .noFrames
  else
    match sec.stored with
    | some (.valid cfg) =>
      .ok { spacing := some cfg.spacing, padding := cfg.padding
            layout := cfg.layout, alignment := cfg.alignment }
    | some .malformed => .ok (detectInit sec)
    | none => .ok (detectInit sec)

/-- Node kinds relevant to `findParentSection`: a Figma `SECTION` or any
other scene node. -/
inductive NodeKind
  | section
  | other
deriving DecidableEq, Repr

/-- A scene node, identified so that distinct sections can be told apart. -/
structure DocNode where
  id : Nat
  kind : NodeKind
deriving DecidableEq, Repr

/-- `findParentSection` (src/code.ts:606-623) over the chain
`[node, parent, grandparent, …]` (the source's upward walk, which stops when
the parent is the page or missing): return the first `SECTION` encountered. -/
def findParentSection : List DocNode → Option DocNode
  | [] => none
  | n :: rest => if n.kind = .section then some n else findParentSection rest

/-! ### Specification-side definitions

These restate parts of the specification in direct form, independently of the
control flow of the source; the theorems below compare them with the embedded
functions. -/

/-- The minimum of a nonempty list of rationals (0 on `[]`, unused). -/
def qminD : List ℚ → ℚ
  | [] => 0
  | a :: l => l.foldl min a

/-- The maximum of a nonempty list of rationals (0 on `[]`, unused). -/
def qmaxD : List ℚ → ℚ
  | [] => 0
  | a :: l => l.foldl max a

/-- The (y, x)-lexicographic order in which the specification says
`detectSpacing` visits the rectangles. -/
def leLexYX (a b : Rect) : Prop := a.y < b.y ∨ (a.y = b.y ∧ a.x ≤ b.x)

instance : DecidableRel leLexYX := fun a b => by
  unfold leLexYX
  infer_instance

/-- Single-pass row clustering, stated directly: scanning the list, a
rectangle joins the current row exactly when its `y` is within 10 units of
the reference `y` (the `y` of the row's first member); otherwise it starts a
new row whose reference is its own `y`. Returns the members the current row
still collects, and the rows formed after it closes. -/
def clusterAux (rowY : ℚ) : List Rect → List Rect × List (List Rect)
  | [] => ([], [])
  | g :: gs =>
    if |g.y - rowY| < 10 then
      ((g :: (clusterAux rowY gs).1), (clusterAux rowY gs).2)
    else
      ([], ((g :: (clusterAux g.y gs).1) :: (clusterAux g.y gs).2))

/-- The rows produced by the single-pass join rule of the specification. -/
def clusterRows : List Rect → List (List Rect)
  | [] => []
  | f :: fs => (f :: (clusterAux f.y fs).1) :: (clusterAux f.y fs).2

/-- A nonzero spacing bucket qualifying for the zero-override of
src/code.ts:266-281: at least 2 members and at least a 5% share. -/
def qualifiesNZ (gaps : List ℚ) (k : ℤ) : Prop :=
  0 < k ∧ 2 ≤ bucketCount gaps k ∧ (gaps.length : ℚ) * 0.05 ≤ (bucketCount gaps k : ℚ)

instance (gaps : List ℚ) (k : ℤ) : Decidable (qualifiesNZ gaps k) := by
  unfold qualifiesNZ
  infer_instance

/-- All tops coincide with the first rectangle's top, within 2 units. -/
def topsAligned (frames : List Rect) : Prop :=
  ∀ f ∈ frames, |f.y - frames.headI.y| ≤ 2

instance : DecidablePred topsAligned := fun frames => by
  unfold topsAligned
  infer_instance

/-- All bottoms coincide with the first rectangle's bottom, within 2 units. -/
def bottomsAligned (frames : List Rect) : Prop :=
  ∀ f ∈ frames, |f.y + f.height - (frames.headI.y + frames.headI.height)| ≤ 2

instance : DecidablePred bottomsAligned := fun frames => by
  unfold bottomsAligned
  infer_instance

/-- The arithmetic mean of the rectangles' vertical centers. -/
def centerMeanY (frames : List Rect) : ℚ :=
  (frames.map (fun f => f.y + f.height / 2)).sum / (frames.length : ℚ)

/-- All vertical centers coincide with their arithmetic mean, within 2
units. -/
def centersAligned (frames : List Rect) : Prop :=
  ∀ f ∈ frames, |f.y + f.height / 2 - centerMeanY frames| ≤ 2

instance : DecidablePred centersAligned := fun frames => by
  unfold centersAligned
  infer_instance

/-- The fraction of a frame's own extent subtracted from the baseline by the
alignment branch of the placement loops. -/
def alignCoef : Align → ℚ
  | .top => 0
  | .center => 1/2
  | _ => 1

/-- The symmetric coefficient for the vertical placement loop, whose
branches are keyed on `left`/`center`. -/
def alignCoefV : Align → ℚ
  | .left => 0
  | .center => 1/2
  | _ => 1

/-- Size specification for C5: `width - padding.right` is the maximum over
members of `relX + width`, and `height - padding.bottom` the maximum of
`relY + height`. -/
def sizeSpec (r : SectionResult) (msg : Config) : Prop :=
  (∀ f ∈ r.relFrames, f.x + f.width ≤ r.width - msg.padding.right) ∧
  (∃ f ∈ r.relFrames, f.x + f.width = r.width - msg.padding.right) ∧
  (∀ f ∈ r.relFrames, f.y + f.height ≤ r.height - msg.padding.bottom) ∧
  (∃ f ∈ r.relFrames, f.y + f.height = r.height - msg.padding.bottom)

/-- Counterexample input for C3: a configuration with negative spacing. -/
def c3msg : Config := ⟨⟨0, 0, 0, 0⟩, -5, .horizontal, .top⟩

/-- Counterexample input for C3: a narrow and a wide rectangle. -/
def c3frames : List Rect := [⟨0, 0, 2, 10⟩, ⟨100, 0, 10, 10⟩]

/-- Counterexample input for C2: one row with gaps `[0,0,0,0,10,10]`. -/
def c2frames : List Rect :=
  [⟨0, 0, 10, 10⟩, ⟨10, 0, 10, 10⟩, ⟨20, 0, 10, 10⟩, ⟨30, 0, 10, 10⟩,
   ⟨40, 0, 10, 10⟩, ⟨60, 0, 10, 10⟩, ⟨80, 0, 10, 10⟩]

/-- Witness input for C2 (amended): one row with gaps `[0,0,5,10,10]`. -/
def c2wframes : List Rect :=
  [⟨0, 0, 10, 10⟩, ⟨10, 0, 10, 10⟩, ⟨20, 0, 10, 10⟩, ⟨35, 0, 10, 10⟩,
   ⟨55, 0, 10, 10⟩, ⟨75, 0, 10, 10⟩]

/-! ### Fold characterizations -/

theorem foldl_min_le_seed : ∀ (t : List ℚ) (b : ℚ), t.foldl min b ≤ b
  | [], _ => le_refl _
  | c :: t, b => le_trans (foldl_min_le_seed t (min b c)) (min_le_left _ _)

theorem foldl_min_le_mem : ∀ {t : List ℚ} {a : ℚ} (b : ℚ), a ∈ t → t.foldl min b ≤ a := by
  intro t
  induction t with
  | nil => intro a b h; cases h
  | cons c t ih =>
    intro a b h
    rcases List.mem_cons.mp h with rfl | h
    · exact le_trans (foldl_min_le_seed t (min b a)) (min_le_right _ _)
    · exact ih _ h

theorem foldl_min_mem : ∀ (t : List ℚ) (b : ℚ), t.foldl min b = b ∨ t.foldl min b ∈ t := by
  intro t
  induction t with
  | nil => intro b; exact Or.inl rfl
  | cons c t ih =>
    intro b
    rcases ih (min b c) with h | h
    · rcases min_cases b c with ⟨he, _⟩ | ⟨he, _⟩
      · exact Or.inl (by rw [List.foldl_cons, h, he])
      · exact Or.inr (by rw [List.foldl_cons, h, he]; exact List.mem_cons_self _ _)
    · exact Or.inr (List.mem_cons_of_mem _ h)

theorem foldl_max_ge_seed : ∀ (t : List ℚ) (b : ℚ), b ≤ t.foldl max b
  | [], _ => le_refl _
  | c :: t, b => le_trans (le_max_left _ _) (foldl_max_ge_seed t (max b c))

theorem foldl_max_ge_mem : ∀ {t : List ℚ} {a : ℚ} (b : ℚ), a ∈ t → a ≤ t.foldl max b := by
  intro t
  induction t with
  | nil => intro a b h; cases h
  | cons c t ih =>
    intro a b h
    rcases List.mem_cons.mp h with rfl | h
    · exact le_trans (le_max_right _ _) (foldl_max_ge_seed t (max b a))
    · exact ih _ h

theorem foldl_max_mem : ∀ (t : List ℚ) (b : ℚ), t.foldl max b = b ∨ t.foldl max b ∈ t := by
  intro t
  induction t with
  | nil => intro b; exact Or.inl rfl
  | cons c t ih =>
    intro b
    rcases ih (max b c) with h | h
    · rcases max_cases b c with ⟨he, _⟩ | ⟨he, _⟩
      · exact Or.inl (by rw [List.foldl_cons, h, he])
      · exact Or.inr (by rw [List.foldl_cons, h, he]; exact List.mem_cons_self _ _)
    · exact Or.inr (List.mem_cons_of_mem _ h)

theorem qminD_le {l : List ℚ} {a : ℚ} (h : a ∈ l) : qminD l ≤ a := by
  match l, h with
  | b :: t, h =>
    rcases List.mem_cons.mp h with rfl | h
    · exact foldl_min_le_seed t a
    · exact foldl_min_le_mem b h

theorem qminD_mem {l : List ℚ} (h : l ≠ []) : qminD l ∈ l := by
  match l, h with
  | b :: t, _ =>
    rcases foldl_min_mem t b with h | h
    · simp only [qminD, h]
      exact List.mem_cons_self _ _
    · exact List.mem_cons_of_mem _ h

theorem qminD_eq_of_mem_le {l : List ℚ} {b : ℚ} (hmem : b ∈ l) (hle : ∀ a ∈ l, b ≤ a) :
    qminD l = b :=
  le_antisymm (qminD_le hmem) (hle _ (qminD_mem (List.ne_nil_of_mem hmem)))

theorem le_qmaxD {l : List ℚ} {a : ℚ} (h : a ∈ l) : a ≤ qmaxD l := by
  match l, h with
  | b :: t, h =>
    rcases List.mem_cons.mp h with rfl | h
    · exact foldl_max_ge_seed t a
    · exact foldl_max_ge_mem b h

theorem qmaxD_mem {l : List ℚ} (h : l ≠ []) : qmaxD l ∈ l := by
  match l, h with
  | b :: t, _ =>
    rcases foldl_max_mem t b with h | h
    · simp only [qmaxD, h]
      exact List.mem_cons_self _ _
    · exact List.mem_cons_of_mem _ h

theorem qmaxD_eq_of_mem_ge {l : List ℚ} {b : ℚ} (hmem : b ∈ l) (hge : ∀ a ∈ l, a ≤ b) :
    qmaxD l = b :=
  le_antisymm (hge _ (qmaxD_mem (List.ne_nil_of_mem hmem))) (le_qmaxD hmem)

/-! ### Bridges from the Infinity-seeded folds of the source to `qminD`/`qmaxD` -/

theorem minXOf_eq_qminD (l : List Rect) : minXOf l = qminD (l.map (·.x)) := by
  cases l with
  | nil => rfl
  | cons r t => simp [minXOf, qminD, List.foldl_map]

theorem minYOf_eq_qminD (l : List Rect) : minYOf l = qminD (l.map (·.y)) := by
  cases l with
  | nil => rfl
  | cons r t => simp [minYOf, qminD, List.foldl_map]

theorem maxXOf_eq_qmaxD (l : List Rect) : maxXOf l = qmaxD (l.map (fun f => f.x + f.width)) := by
  cases l with
  | nil => rfl
  | cons r t => simp [maxXOf, qmaxD, List.foldl_map]

theorem maxYOf_eq_qmaxD (l : List Rect) : maxYOf l = qmaxD (l.map (fun f => f.y + f.height)) := by
  cases l with
  | nil => rfl
  | cons r t => simp [maxYOf, qmaxD, List.foldl_map]

theorem maxHeightOf_eq_qmaxD (l : List Rect) : maxHeightOf l = qmaxD (l.map (·.height)) := by
  cases l with
  | nil => rfl
  | cons r t => simp [maxHeightOf, qmaxD, List.foldl_map]

theorem maxWidthOf_eq_qmaxD (l : List Rect) : maxWidthOf l = qmaxD (l.map (·.width)) := by
  cases l with
  | nil => rfl
  | cons r t => simp [maxWidthOf, qmaxD, List.foldl_map]

theorem minXOf_le {l : List Rect} {f : Rect} (h : f ∈ l) : minXOf l ≤ f.x := by
  rw [minXOf_eq_qminD]
  exact qminD_le (List.mem_map_of_mem _ h)

theorem minYOf_le {l : List Rect} {f : Rect} (h : f ∈ l) : minYOf l ≤ f.y := by
  rw [minYOf_eq_qminD]
  exact qminD_le (List.mem_map_of_mem _ h)

theorem le_maxHeightOf {l : List Rect} {f : Rect} (h : f ∈ l) : f.height ≤ maxHeightOf l := by
  rw [maxHeightOf_eq_qmaxD]
  exact le_qmaxD (List.mem_map_of_mem _ h)

theorem le_maxWidthOf {l : List Rect} {f : Rect} (h : f ∈ l) : f.width ≤ maxWidthOf l := by
  rw [maxWidthOf_eq_qmaxD]
  exact le_qmaxD (List.mem_map_of_mem _ h)

/-! ### Placement-loop lemmas -/

theorem alignCoef_nonneg (al : Align) : 0 ≤ alignCoef al := by
  cases al <;> norm_num [alignCoef]

theorem alignCoefV_nonneg (al : Align) : 0 ≤ alignCoefV al := by
  cases al <;> norm_num [alignCoefV]

theorem placeH_length (s : ℚ) (al : Align) (bY : ℚ) :
    ∀ (cx : ℚ) (l : List Rect), (placeH s al bY cx l).length = l.length := by
  intro cx l
  induction l generalizing cx with
  | nil => rfl
  | cons f t ih => simp [placeH, ih]

theorem placeV_length (s : ℚ) (al : Align) (bX : ℚ) :
    ∀ (cy : ℚ) (l : List Rect), (placeV s al bX cy l).length = l.length := by
  intro cy l
  induction l generalizing cy with
  | nil => rfl
  | cons f t ih => simp [placeV, ih]

theorem placeH_map_width (s : ℚ) (al : Align) (bY : ℚ) :
    ∀ (cx : ℚ) (l : List Rect), (placeH s al bY cx l).map (·.width) = l.map (·.width) := by
  intro cx l
  induction l generalizing cx with
  | nil => rfl
  | cons f t ih => simp [placeH, ih]

theorem placeH_map_height (s : ℚ) (al : Align) (bY : ℚ) :
    ∀ (cx : ℚ) (l : List Rect), (placeH s al bY cx l).map (·.height) = l.map (·.height) := by
  intro cx l
  induction l generalizing cx with
  | nil => rfl
  | cons f t ih => simp [placeH, ih]

theorem placeV_map_width (s : ℚ) (al : Align) (bX : ℚ) :
    ∀ (cy : ℚ) (l : List Rect), (placeV s al bX cy l).map (·.width) = l.map (·.width) := by
  intro cy l
  induction l generalizing cy with
  | nil => rfl
  | cons f t ih => simp [placeV, ih]

theorem placeV_map_height (s : ℚ) (al : Align) (bX : ℚ) :
    ∀ (cy : ℚ) (l : List Rect), (placeV s al bX cy l).map (·.height) = l.map (·.height) := by
  intro cy l
  induction l generalizing cy with
  | nil => rfl
  | cons f t ih => simp [placeV, ih]

theorem placeH_map_y (s : ℚ) (al : Align) (bY : ℚ) :
    ∀ (cx : ℚ) (l : List Rect),
      (placeH s al bY cx l).map (·.y) = l.map (fun f => bY - alignCoef al * f.height) := by
  intro cx l
  induction l generalizing cx with
  | nil => rfl
  | cons f t ih =>
    simp only [placeH, List.map_cons, ih]
    refine congrArg (· :: _) ?_
    cases al <;> simp [alignCoef, placedY] <;> ring

theorem placeV_map_x (s : ℚ) (al : Align) (bX : ℚ) :
    ∀ (cy : ℚ) (l : List Rect),
      (placeV s al bX cy l).map (·.x) = l.map (fun f => bX - alignCoefV al * f.width) := by
  intro cy l
  induction l generalizing cy with
  | nil => rfl
  | cons f t ih =>
    simp only [placeV, List.map_cons, ih]
    refine congrArg (· :: _) ?_
    cases al <;> simp [alignCoefV, placedX] <;> ring

theorem placeH_x_ge (s : ℚ) (al : Align) (bY : ℚ) (hs : 0 ≤ s) :
    ∀ (cx : ℚ) (l : List Rect), (∀ f ∈ l, 0 ≤ f.width) →
      ∀ g ∈ placeH s al bY cx l, cx ≤ g.x := by
  intro cx l
  induction l generalizing cx with
  | nil => intro _ g hg; cases hg
  | cons f t ih =>
    intro hw g hg
    rcases List.mem_cons.mp hg with rfl | hg
    · exact le_refl _
    · have h1 : cx + f.width + s ≤ g.x :=
        ih (cx + f.width + s) (fun f hf => hw f (List.mem_cons_of_mem _ hf)) g hg
      have h0 : 0 ≤ f.width := hw f (List.mem_cons_self _ _)
      linarith

theorem placeV_y_ge (s : ℚ) (al : Align) (bX : ℚ) (hs : 0 ≤ s) :
    ∀ (cy : ℚ) (l : List Rect), (∀ f ∈ l, 0 ≤ f.height) →
      ∀ g ∈ placeV s al bX cy l, cy ≤ g.y := by
  intro cy l
  induction l generalizing cy with
  | nil => intro _ g hg; cases hg
  | cons f t ih =>
    intro hh g hg
    rcases List.mem_cons.mp hg with rfl | hg
    · exact le_refl _
    · have h1 : cy + f.height + s ≤ g.y :=
        ih (cy + f.height + s) (fun f hf => hh f (List.mem_cons_of_mem _ hf)) g hg
      have h0 : 0 ≤ f.height := hh f (List.mem_cons_self _ _)
      linarith

theorem placeH_pairwise_leX (s : ℚ) (al : Align) (bY : ℚ) (hs : 0 ≤ s) :
    ∀ (cx : ℚ) (l : List Rect), (∀ f ∈ l, 0 ≤ f.width) →
      (placeH s al bY cx l).Pairwise leX := by
  intro cx l
  induction l generalizing cx with
  | nil => intro _; exact List.Pairwise.nil
  | cons f t ih =>
    intro hw
    refine List.Pairwise.cons ?_ (ih _ (fun f hf => hw f (List.mem_cons_of_mem _ hf)))
    intro g hg
    have h1 : cx + f.width + s ≤ g.x :=
      placeH_x_ge s al bY hs _ t (fun f hf => hw f (List.mem_cons_of_mem _ hf)) g hg
    have h0 : 0 ≤ f.width := hw f (List.mem_cons_self _ _)
    show ({ f with x := cx, y := _ } : Rect).x ≤ g.x
    simp only
    linarith

theorem placeV_pairwise_leY (s : ℚ) (al : Align) (bX : ℚ) (hs : 0 ≤ s) :
    ∀ (cy : ℚ) (l : List Rect), (∀ f ∈ l, 0 ≤ f.height) →
      (placeV s al bX cy l).Pairwise leY := by
  intro cy l
  induction l generalizing cy with
  | nil => intro _; exact List.Pairwise.nil
  | cons f t ih =>
    intro hh
    refine List.Pairwise.cons ?_ (ih _ (fun f hf => hh f (List.mem_cons_of_mem _ hf)))
    intro g hg
    have h1 : cy + f.height + s ≤ g.y :=
      placeV_y_ge s al bX hs _ t (fun f hf => hh f (List.mem_cons_of_mem _ hf)) g hg
    have h0 : 0 ≤ f.height := hh f (List.mem_cons_self _ _)
    show ({ f with y := cy, x := _ } : Rect).y ≤ g.y
    simp only
    linarith

theorem placeH_idem (s : ℚ) (al : Align) (bY : ℚ) :
    ∀ (cx : ℚ) (l : List Rect), placeH s al bY cx (placeH s al bY cx l) = placeH s al bY cx l := by
  intro cx l
  induction l generalizing cx with
  | nil => rfl
  | cons f t ih => cases al <;> simp [placeH, ih]

theorem placeV_idem (s : ℚ) (al : Align) (bX : ℚ) :
    ∀ (cy : ℚ) (l : List Rect), placeV s al bX cy (placeV s al bX cy l) = placeV s al bX cy l := by
  intro cy l
  induction l generalizing cy with
  | nil => rfl
  | cons f t ih => cases al <;> simp [placeV, ih]

theorem baseYFor_eq (al : Align) (sy mH : ℚ) : baseYFor al sy mH = sy + alignCoef al * mH := by
  cases al <;> simp [baseYFor, alignCoef] <;> ring

theorem baseXFor_eq (al : Align) (sx mW : ℚ) : baseXFor al sx mW = sx + alignCoefV al * mW := by
  cases al <;> simp [baseXFor, alignCoefV] <;> ring

/-! ### Arrangement-level lemmas -/

theorem qminD_map_affine (c b : ℚ) (hc : 0 ≤ c) (g : Rect → ℚ) (l : List Rect) (hl : l ≠ []) :
    qminD (l.map (fun f => b - c * g f)) = b - c * qmaxD (l.map g) := by
  obtain ⟨h0, hmem⟩ : qmaxD (l.map g) ∈ l.map g ∧ True :=
    ⟨qmaxD_mem (by simpa using hl), trivial⟩
  obtain ⟨f0, hf0, hf0v⟩ := List.mem_map.mp h0
  apply qminD_eq_of_mem_le
  · exact List.mem_map.mpr ⟨f0, hf0, by rw [hf0v]⟩
  · intro a ha
    obtain ⟨f, hf, rfl⟩ := List.mem_map.mp ha
    have : g f ≤ qmaxD (l.map g) := le_qmaxD (List.mem_map_of_mem _ hf)
    nlinarith

theorem placeH_minX (s : ℚ) (al : Align) (bY cx : ℚ) (l : List Rect) (hl : l ≠ [])
    (hs : 0 ≤ s) (hw : ∀ f ∈ l, 0 ≤ f.width) :
    minXOf (placeH s al bY cx l) = cx := by
  rw [minXOf_eq_qminD]
  apply qminD_eq_of_mem_le
  · match l, hl with
    | f :: t, _ =>
      exact List.mem_map.mpr ⟨_, List.mem_cons_self _ _, rfl⟩
  · intro a ha
    obtain ⟨g, hg, rfl⟩ := List.mem_map.mp ha
    exact placeH_x_ge s al bY hs cx l hw g hg

theorem placeV_minY (s : ℚ) (al : Align) (bX cy : ℚ) (l : List Rect) (hl : l ≠ [])
    (hs : 0 ≤ s) (hh : ∀ f ∈ l, 0 ≤ f.height) :
    minYOf (placeV s al bX cy l) = cy := by
  rw [minYOf_eq_qminD]
  apply qminD_eq_of_mem_le
  · match l, hl with
    | f :: t, _ =>
      exact List.mem_map.mpr ⟨_, List.mem_cons_self _ _, rfl⟩
  · intro a ha
    obtain ⟨g, hg, rfl⟩ := List.mem_map.mp ha
    exact placeV_y_ge s al bX hs cy l hh g hg

theorem placeH_maxHeight (s : ℚ) (al : Align) (bY cx : ℚ) (l : List Rect) :
    maxHeightOf (placeH s al bY cx l) = maxHeightOf l := by
  rw [maxHeightOf_eq_qmaxD, placeH_map_height, ← maxHeightOf_eq_qmaxD]

theorem placeV_maxWidth (s : ℚ) (al : Align) (bX cy : ℚ) (l : List Rect) :
    maxWidthOf (placeV s al bX cy l) = maxWidthOf l := by
  rw [maxWidthOf_eq_qmaxD, placeV_map_width, ← maxWidthOf_eq_qmaxD]

theorem placeH_minY (s : ℚ) (al : Align) (bY cx : ℚ) (l : List Rect) (hl : l ≠ []) :
    minYOf (placeH s al bY cx l) = bY - alignCoef al * maxHeightOf l := by
  rw [minYOf_eq_qminD, placeH_map_y,
    qminD_map_affine _ _ (alignCoef_nonneg al) _ l hl, ← maxHeightOf_eq_qmaxD]

theorem placeV_minX (s : ℚ) (al : Align) (bX cy : ℚ) (l : List Rect) (hl : l ≠ []) :
    minXOf (placeV s al bX cy l) = bX - alignCoefV al * maxWidthOf l := by
  rw [minXOf_eq_qminD, placeV_map_x,
    qminD_map_affine _ _ (alignCoefV_nonneg al) _ l hl, ← maxWidthOf_eq_qmaxD]

theorem insertionSort_ne_nil {r : Rect → Rect → Prop} [DecidableRel r] {l : List Rect}
    (h : l ≠ []) : l.insertionSort r ≠ [] := by
  intro he
  apply h
  have := List.length_insertionSort r l
  rw [he] at this
  exact List.length_eq_zero.mp this.symm

theorem placeH_ne_nil (s : ℚ) (al : Align) (bY cx : ℚ) {l : List Rect} (h : l ≠ []) :
    placeH s al bY cx l ≠ [] := by
  intro he
  apply h
  have := placeH_length s al bY cx l
  rw [he] at this
  exact List.length_eq_zero.mp this.symm

theorem placeV_ne_nil (s : ℚ) (al : Align) (bX cy : ℚ) {l : List Rect} (h : l ≠ []) :
    placeV s al bX cy l ≠ [] := by
  intro he
  apply h
  have := placeV_length s al bX cy l
  rw [he] at this
  exact List.length_eq_zero.mp this.symm

theorem placeH_width_nonneg (s : ℚ) (al : Align) (bY cx : ℚ) {l : List Rect}
    (hw : ∀ f ∈ l, 0 ≤ f.width) : ∀ f ∈ placeH s al bY cx l, 0 ≤ f.width := by
  intro f hf
  have hmem : f.width ∈ (placeH s al bY cx l).map (·.width) := List.mem_map_of_mem _ hf
  rw [placeH_map_width] at hmem
  obtain ⟨g, hg, he⟩ := List.mem_map.mp hmem
  exact he ▸ hw g hg

theorem placeH_height_nonneg (s : ℚ) (al : Align) (bY cx : ℚ) {l : List Rect}
    (hh : ∀ f ∈ l, 0 ≤ f.height) : ∀ f ∈ placeH s al bY cx l, 0 ≤ f.height := by
  intro f hf
  have hmem : f.height ∈ (placeH s al bY cx l).map (·.height) := List.mem_map_of_mem _ hf
  rw [placeH_map_height] at hmem
  obtain ⟨g, hg, he⟩ := List.mem_map.mp hmem
  exact he ▸ hh g hg

theorem placeV_width_nonneg (s : ℚ) (al : Align) (bX cy : ℚ) {l : List Rect}
    (hw : ∀ f ∈ l, 0 ≤ f.width) : ∀ f ∈ placeV s al bX cy l, 0 ≤ f.width := by
  intro f hf
  have hmem : f.width ∈ (placeV s al bX cy l).map (·.width) := List.mem_map_of_mem _ hf
  rw [placeV_map_width] at hmem
  obtain ⟨g, hg, he⟩ := List.mem_map.mp hmem
  exact he ▸ hw g hg

theorem placeV_height_nonneg (s : ℚ) (al : Align) (bX cy : ℚ) {l : List Rect}
    (hh : ∀ f ∈ l, 0 ≤ f.height) : ∀ f ∈ placeV s al bX cy l, 0 ≤ f.height := by
  intro f hf
  have hmem : f.height ∈ (placeV s al bX cy l).map (·.height) := List.mem_map_of_mem _ hf
  rw [placeV_map_height] at hmem
  obtain ⟨g, hg, he⟩ := List.mem_map.mp hmem
  exact he ▸ hh g hg

theorem arrangeH_fixpoint (frames : List Rect) (s sx sy : ℚ) (al : Align)
    (hs : 0 ≤ s) (hn : frames ≠ []) (hw : ∀ f ∈ frames, 0 ≤ f.width) :
    arrangeFramesHorizontal (arrangeFramesHorizontal frames s sx sy al) s
        (minXOf (arrangeFramesHorizontal frames s sx sy al))
        (minYOf (arrangeFramesHorizontal frames s sx sy al)) al
      = arrangeFramesHorizontal frames s sx sy al := by
  have hsn : frames.insertionSort leX ≠ [] := insertionSort_ne_nil hn
  have hws : ∀ f ∈ frames.insertionSort leX, 0 ≤ f.width :=
    fun f hf => hw f ((List.mem_insertionSort leX).mp hf)
  set sorted := frames.insertionSort leX
  set mH := maxHeightOf sorted with hmH
  set bY := baseYFor al sy mH with hbY
  set out := placeH s al bY sx sorted with hout
  have houtn : out ≠ [] := placeH_ne_nil s al bY sx hsn
  have houtw : ∀ f ∈ out, 0 ≤ f.width := placeH_width_nonneg s al bY sx hws
  have hsortout : out.insertionSort leX = out :=
    List.Sorted.insertionSort_eq (placeH_pairwise_leX s al bY hs sx sorted hws)
  have hminx : minXOf out = sx := placeH_minX s al bY sx sorted hsn hs hws
  have hminy : minYOf out = sy := by
    rw [hout, placeH_minY s al bY sx sorted hsn, hbY, baseYFor_eq]
    ring
  show arrangeFramesHorizontal out s (minXOf out) (minYOf out) al = out
  unfold arrangeFramesHorizontal
  rw [hsortout, hminx, hminy]
  have hmaxH : maxHeightOf out = mH := by
    rw [hout, placeH_maxHeight]
  rw [hmaxH, ← hbY, hout]
  exact placeH_idem s al bY sx sorted

theorem arrangeV_fixpoint (frames : List Rect) (s sx sy : ℚ) (al : Align)
    (hs : 0 ≤ s) (hn : frames ≠ []) (hh : ∀ f ∈ frames, 0 ≤ f.height) :
    arrangeFramesVertical (arrangeFramesVertical frames s sx sy al) s
        (minXOf (arrangeFramesVertical frames s sx sy al))
        (minYOf (arrangeFramesVertical frames s sx sy al)) al
      = arrangeFramesVertical frames s sx sy al := by
  have hsn : frames.insertionSort leY ≠ [] := insertionSort_ne_nil hn
  have hhs : ∀ f ∈ frames.insertionSort leY, 0 ≤ f.height :=
    fun f hf => hh f ((List.mem_insertionSort leY).mp hf)
  set sorted := frames.insertionSort leY
  set mW := maxWidthOf sorted with hmW
  set bX := baseXFor al sx mW with hbX
  set out := placeV s al bX sy sorted with hout
  have houtn : out ≠ [] := placeV_ne_nil s al bX sy hsn
  have hsortout : out.insertionSort leY = out :=
    List.Sorted.insertionSort_eq (placeV_pairwise_leY s al bX hs sy sorted hhs)
  have hminy : minYOf out = sy := placeV_minY s al bX sy sorted hsn hs hhs
  have hminx : minXOf out = sx := by
    rw [hout, placeV_minX s al bX sy sorted hsn, hbX, baseXFor_eq]
    ring
  show arrangeFramesVertical out s (minXOf out) (minYOf out) al = out
  unfold arrangeFramesVertical
  rw [hsortout, hminx, hminy]
  have hmaxW : maxWidthOf out = mW := by
    rw [hout, placeV_maxWidth]
  rw [hmaxW, ← hbX, hout]
  exact placeV_idem s al bX sy sorted

theorem applyLayout_fixpoint (msg : Config) (frames : List Rect)
    (hs : 0 ≤ msg.spacing) (hn : frames ≠ [])
    (hw : ∀ f ∈ frames, 0 ≤ f.width) (hh : ∀ f ∈ frames, 0 ≤ f.height) :
    applyLayout msg (applyLayout msg frames) = applyLayout msg frames := by
  cases hlay : msg.layout with
  | horizontal =>
    unfold applyLayout
    rw [hlay]
    exact arrangeH_fixpoint frames msg.spacing (minXOf frames) (minYOf frames)
      msg.alignment hs hn hw
  | vertical =>
    unfold applyLayout
    rw [hlay]
    exact arrangeV_fixpoint frames msg.spacing (minXOf frames) (minYOf frames)
      msg.alignment hs hn hh
  | maintain =>
    unfold applyLayout
    rw [hlay]
    rfl

theorem applyLayout_length (msg : Config) (frames : List Rect) :
    (applyLayout msg frames).length = frames.length := by
  cases hlay : msg.layout <;>
    simp [applyLayout, hlay, arrangeFramesHorizontal, arrangeFramesVertical,
      arrangeFramesMaintain, placeH_length, placeV_length]

theorem applyLayout_ne_nil (msg : Config) {frames : List Rect} (hn : frames ≠ []) :
    applyLayout msg frames ≠ [] := by
  intro he
  apply hn
  have := applyLayout_length msg frames
  rw [he] at this
  exact List.length_eq_zero.mp this.symm

theorem applyLayout_width_nonneg (msg : Config) {frames : List Rect}
    (hw : ∀ f ∈ frames, 0 ≤ f.width) : ∀ f ∈ applyLayout msg frames, 0 ≤ f.width := by
  cases hlay : msg.layout with
  | horizontal =>
    simp only [applyLayout, hlay, arrangeFramesHorizontal]
    exact placeH_width_nonneg _ _ _ _
      (fun f hf => hw f ((List.mem_insertionSort leX).mp hf))
  | vertical =>
    simp only [applyLayout, hlay, arrangeFramesVertical]
    exact placeV_width_nonneg _ _ _ _
      (fun f hf => hw f ((List.mem_insertionSort leY).mp hf))
  | maintain =>
    simp only [applyLayout, hlay, arrangeFramesMaintain]
    exact hw

theorem applyLayout_height_nonneg (msg : Config) {frames : List Rect}
    (hh : ∀ f ∈ frames, 0 ≤ f.height) : ∀ f ∈ applyLayout msg frames, 0 ≤ f.height := by
  cases hlay : msg.layout with
  | horizontal =>
    simp only [applyLayout, hlay, arrangeFramesHorizontal]
    exact placeH_height_nonneg _ _ _ _
      (fun f hf => hh f ((List.mem_insertionSort leX).mp hf))
  | vertical =>
    simp only [applyLayout, hlay, arrangeFramesVertical]
    exact placeV_height_nonneg _ _ _ _
      (fun f hf => hh f ((List.mem_insertionSort leY).mp hf))
  | maintain =>
    simp only [applyLayout, hlay, arrangeFramesMaintain]
    exact hh

theorem sectionPipeline_fixpoint (msg : Config) (frames : List Rect)
    (hs : 0 ≤ msg.spacing) (hn : frames ≠ [])
    (hw : ∀ f ∈ frames, 0 ≤ f.width) (hh : ∀ f ∈ frames, 0 ≤ f.height) :
    sectionPipeline msg
      ((sectionPipeline msg frames).relFrames.map
        (fun f => { f with x := (sectionPipeline msg frames).x + f.x,
                           y := (sectionPipeline msg frames).y + f.y }))
      = sectionPipeline msg frames := by
  have hrel : (sectionPipeline msg frames).relFrames
      = (applyLayout msg frames).map
          (fun f => { f with x := f.x - minXOf (applyLayout msg frames) + msg.padding.left,
                             y := f.y - minYOf (applyLayout msg frames) + msg.padding.top }) := rfl
  have hx : (sectionPipeline msg frames).x
      = minXOf (applyLayout msg frames) - msg.padding.left := rfl
  have hy : (sectionPipeline msg frames).y
      = minYOf (applyLayout msg frames) - msg.padding.top := rfl
  rw [hrel, hx, hy, List.map_map]
  have hcomp :
      (applyLayout msg frames).map
        ((fun f => ({ f with
            x := (minXOf (applyLayout msg frames) - msg.padding.left) + f.x,
            y := (minYOf (applyLayout msg frames) - msg.padding.top) + f.y } : Rect)) ∘
          fun f => { f with
            x := f.x - minXOf (applyLayout msg frames) + msg.padding.left,
            y := f.y - minYOf (applyLayout msg frames) + msg.padding.top })
      = applyLayout msg frames := by
    have hid : ∀ a : Rect,
        ((fun f => ({ f with
            x := (minXOf (applyLayout msg frames) - msg.padding.left) + f.x,
            y := (minYOf (applyLayout msg frames) - msg.padding.top) + f.y } : Rect)) ∘
          fun f => { f with
            x := f.x - minXOf (applyLayout msg frames) + msg.padding.left,
            y := f.y - minYOf (applyLayout msg frames) + msg.padding.top }) a = a := by
      intro a
      cases a with
      | mk ax ay aw ah =>
        simp only [Function.comp_apply, Rect.mk.injEq, and_true, true_and]
        exact ⟨by ring, by ring⟩
    calc (applyLayout msg frames).map _ = (applyLayout msg frames).map id := by
          exact List.map_congr_left (fun a _ => hid a)
      _ = applyLayout msg frames := List.map_id _
  rw [hcomp]
  show sectionPipeline msg (applyLayout msg frames) = sectionPipeline msg frames
  unfold sectionPipeline
  rw [applyLayout_fixpoint msg frames hs hn hw hh]

theorem createSection_eq_pipeline (msg : Config) (frames : List Rect) :
    createSection msg frames = sectionPipeline msg frames := rfl

theorem updateSection_eq_pipeline (msg : Config) (A B : ℚ) (rel : List Rect) :
    updateSection msg A B rel
      = sectionPipeline msg (rel.map fun f => { f with x := A + f.x, y := B + f.y }) := rfl

/-! ### Claim C3 -/

/-- C3 (counterexample): with spacing `-5`, arranging `[2×10 at x=0, 10×10 at
x=100]` horizontally places the narrow rectangle at relative `x = 3`, but the
immediately following Update re-sorts by the new `x` positions (the wide
rectangle now comes first) and moves the narrow one to relative `x = 5`: an
Update immediately after Create with the identical configuration changes a
member's container-relative position, so the claim fails for configurations
with negative spacing. -/
theorem update_after_create_not_idempotent :
    updateSection c3msg (createSection c3msg c3frames).x (createSection c3msg c3frames).y
      (createSection c3msg c3frames).relFrames ≠ createSection c3msg c3frames := by
  decide

/-- C3 (amended): for every rectangle set with non-negative sizes and every
configuration whose spacing is non-negative, Update immediately after Create
(or after a previous Update) with the identical configuration reproduces the
container origin, the container size, and every member's container-relative
position exactly. -/
theorem update_after_create_idempotent (msg : Config) (frames relFrames0 : List Rect)
    (X Y : ℚ) (hs : 0 ≤ msg.spacing)
    (hn : frames ≠ []) (hw : ∀ f ∈ frames, 0 ≤ f.width) (hh : ∀ f ∈ frames, 0 ≤ f.height)
    (hrn : relFrames0 ≠ []) (hrw : ∀ f ∈ relFrames0, 0 ≤ f.width)
    (hrh : ∀ f ∈ relFrames0, 0 ≤ f.height) :
    updateSection msg (createSection msg frames).x (createSection msg frames).y
        (createSection msg frames).relFrames = createSection msg frames ∧
    updateSection msg (updateSection msg X Y relFrames0).x
        (updateSection msg X Y relFrames0).y
        (updateSection msg X Y relFrames0).relFrames = updateSection msg X Y relFrames0 := by
  constructor
  · rw [createSection_eq_pipeline, updateSection_eq_pipeline]
    exact sectionPipeline_fixpoint msg frames hs hn hw hh
  · have hn2 : (relFrames0.map fun f => ({ f with x := X + f.x, y := Y + f.y } : Rect)) ≠ [] := by
      intro he
      apply hrn
      have := congrArg List.length he
      simpa using List.length_eq_zero.mp (by simpa using this)
    have hw2 : ∀ f ∈ relFrames0.map fun f => ({ f with x := X + f.x, y := Y + f.y } : Rect),
        0 ≤ f.width := by
      intro f hf
      obtain ⟨g, hg, rfl⟩ := List.mem_map.mp hf
      exact hrw g hg
    have hh2 : ∀ f ∈ relFrames0.map fun f => ({ f with x := X + f.x, y := Y + f.y } : Rect),
        0 ≤ f.height := by
      intro f hf
      obtain ⟨g, hg, rfl⟩ := List.mem_map.mp hf
      exact hrh g hg
    rw [updateSection_eq_pipeline msg X Y relFrames0, updateSection_eq_pipeline]
    have hfix := sectionPipeline_fixpoint msg
      (relFrames0.map fun f => { f with x := X + f.x, y := Y + f.y }) hs hn2 hw2 hh2
    exact hfix

/-- C3 (witness): the amended idempotence theorem applied to a concrete
3-rectangle row with spacing 10 and padding 80. -/
theorem update_after_create_idempotent_witness :
    updateSection ⟨⟨80, 80, 80, 80⟩, 10, .horizontal, .top⟩
        (createSection ⟨⟨80, 80, 80, 80⟩, 10, .horizontal, .top⟩
          [⟨0, 0, 100, 100⟩, ⟨110, 0, 100, 100⟩, ⟨220, 0, 100, 100⟩]).x
        (createSection ⟨⟨80, 80, 80, 80⟩, 10, .horizontal, .top⟩
          [⟨0, 0, 100, 100⟩, ⟨110, 0, 100, 100⟩, ⟨220, 0, 100, 100⟩]).y
        (createSection ⟨⟨80, 80, 80, 80⟩, 10, .horizontal, .top⟩
          [⟨0, 0, 100, 100⟩, ⟨110, 0, 100, 100⟩, ⟨220, 0, 100, 100⟩]).relFrames
      = createSection ⟨⟨80, 80, 80, 80⟩, 10, .horizontal, .top⟩
          [⟨0, 0, 100, 100⟩, ⟨110, 0, 100, 100⟩, ⟨220, 0, 100, 100⟩] ∧
    updateSection ⟨⟨80, 80, 80, 80⟩, 10, .horizontal, .top⟩
        (updateSection ⟨⟨80, 80, 80, 80⟩, 10, .horizontal, .top⟩ 5 7 [⟨3, 4, 10, 10⟩]).x
        (updateSection ⟨⟨80, 80, 80, 80⟩, 10, .horizontal, .top⟩ 5 7 [⟨3, 4, 10, 10⟩]).y
        (updateSection ⟨⟨80, 80, 80, 80⟩, 10, .horizontal, .top⟩ 5 7 [⟨3, 4, 10, 10⟩]).relFrames
      = updateSection ⟨⟨80, 80, 80, 80⟩, 10, .horizontal, .top⟩ 5 7 [⟨3, 4, 10, 10⟩] :=
  update_after_create_idempotent ⟨⟨80, 80, 80, 80⟩, 10, .horizontal, .top⟩
    [⟨0, 0, 100, 100⟩, ⟨110, 0, 100, 100⟩, ⟨220, 0, 100, 100⟩] [⟨3, 4, 10, 10⟩] 5 7
    (by norm_num) (by decide) (by decide) (by decide) (by decide) (by decide) (by decide)

/-! ### Claim C5 -/

/-- The seeded fold `max 0` of the source attains the maximum of its list as
soon as the list holds a non-negative element. -/
theorem foldl_max_zero_spec (L : List ℚ) (a1 : ℚ) (h1 : a1 ∈ L) (h1n : 0 ≤ a1) :
    (∀ a ∈ L, a ≤ L.foldl max 0) ∧ L.foldl max 0 ∈ L := by
  refine ⟨fun a ha => foldl_max_ge_mem 0 ha, ?_⟩
  rcases foldl_max_mem L 0 with h | h
  · have hle : a1 ≤ L.foldl max 0 := foldl_max_ge_mem 0 h1
    have ha1 : a1 = 0 := le_antisymm (h ▸ hle) h1n
    rw [h, ← ha1]
    exact h1
  · exact h

theorem sectionPipeline_size (msg : Config) (frames : List Rect) (hn : frames ≠ [])
    (hpl : 0 ≤ msg.padding.left) (hpt : 0 ≤ msg.padding.top)
    (hw : ∀ f ∈ frames, 0 ≤ f.width) (hh : ∀ f ∈ frames, 0 ≤ f.height) :
    sizeSpec (sectionPipeline msg frames) msg := by
  have haw : ∀ f ∈ applyLayout msg frames, 0 ≤ f.width := applyLayout_width_nonneg msg hw
  have hah : ∀ f ∈ applyLayout msg frames, 0 ≤ f.height := applyLayout_height_nonneg msg hh
  have han : applyLayout msg frames ≠ [] := applyLayout_ne_nil msg hn
  set arr := applyLayout msg frames with harr
  set mX := minXOf arr with hmX
  set mY := minYOf arr with hmY
  set rel := arr.map (fun f =>
    ({ f with x := f.x - mX + msg.padding.left, y := f.y - mY + msg.padding.top } : Rect))
    with hreldef
  have hrel : (sectionPipeline msg frames).relFrames = rel := rfl
  have hwd : (sectionPipeline msg frames).width
      = rel.foldl (fun m f => max m (f.x + f.width)) 0 + msg.padding.right := rfl
  have hht : (sectionPipeline msg frames).height
      = rel.foldl (fun m f => max m (f.y + f.height)) 0 + msg.padding.bottom := rfl
  have hfx : rel.foldl (fun m f => max m (f.x + f.width)) 0
      = (rel.map (fun f => f.x + f.width)).foldl max 0 :=
    (List.foldl_map (fun f : Rect => f.x + f.width) max rel 0).symm
  have hfy : rel.foldl (fun m f => max m (f.y + f.height)) 0
      = (rel.map (fun f => f.y + f.height)).foldl max 0 :=
    (List.foldl_map (fun f : Rect => f.y + f.height) max rel 0).symm
  -- a non-negative element of each mapped list
  obtain ⟨g0, hg0⟩ : ∃ g, g ∈ arr := by
    match arr, han with
    | f :: t, _ => exact ⟨f, List.mem_cons_self _ _⟩
  have hg0x : mX ≤ g0.x := minXOf_le hg0
  have hg0y : mY ≤ g0.y := minYOf_le hg0
  set f0 : Rect := { g0 with x := g0.x - mX + msg.padding.left, y := g0.y - mY + msg.padding.top }
    with hf0
  have hf0mem : f0 ∈ rel := by
    rw [hreldef]
    exact List.mem_map_of_mem _ hg0
  have hf0x : 0 ≤ f0.x + f0.width := by
    have := haw g0 hg0
    simp only [hf0]
    linarith
  have hf0y : 0 ≤ f0.y + f0.height := by
    have := hah g0 hg0
    simp only [hf0]
    linarith
  have hx := foldl_max_zero_spec (rel.map (fun f => f.x + f.width)) (f0.x + f0.width)
    (List.mem_map_of_mem _ hf0mem) hf0x
  have hy := foldl_max_zero_spec (rel.map (fun f => f.y + f.height)) (f0.y + f0.height)
    (List.mem_map_of_mem _ hf0mem) hf0y
  refine ⟨?_, ?_, ?_, ?_⟩
  · intro f hf
    rw [hrel] at hf
    rw [hwd, hfx]
    have := hx.1 (f.x + f.width) (List.mem_map_of_mem _ hf)
    linarith
  · obtain ⟨f, hfm, hfe⟩ := List.mem_map.mp hx.2
    refine ⟨f, by rw [hrel]; exact hfm, ?_⟩
    rw [hwd, hfx, hfe]
    ring
  · intro f hf
    rw [hrel] at hf
    rw [hht, hfy]
    have := hy.1 (f.y + f.height) (List.mem_map_of_mem _ hf)
    linarith
  · obtain ⟨f, hfm, hfe⟩ := List.mem_map.mp hy.2
    refine ⟨f, by rw [hrel]; exact hfm, ?_⟩
    rw [hht, hfy, hfe]
    ring

/-- C5: after every Create and after every Update (on rectangles with
non-negative sizes and non-negative padding, as the data model guarantees),
the container width equals the maximum over members of
`container-relative x + width` plus `padding.right`, and the height equals
the maximum of `container-relative y + height` plus `padding.bottom`. -/
theorem section_size_roundtrip (msg : Config) (frames relFrames0 : List Rect) (X Y : ℚ)
    (hn : frames ≠ []) (hrn : relFrames0 ≠ [])
    (hpl : 0 ≤ msg.padding.left) (hpt : 0 ≤ msg.padding.top)
    (hw : ∀ f ∈ frames, 0 ≤ f.width) (hh : ∀ f ∈ frames, 0 ≤ f.height)
    (hrw : ∀ f ∈ relFrames0, 0 ≤ f.width) (hrh : ∀ f ∈ relFrames0, 0 ≤ f.height) :
    sizeSpec (createSection msg frames) msg ∧ sizeSpec (updateSection msg X Y relFrames0) msg := by
  constructor
  · rw [createSection_eq_pipeline]
    exact sectionPipeline_size msg frames hn hpl hpt hw hh
  · rw [updateSection_eq_pipeline]
    have hn2 : (relFrames0.map fun f => ({ f with x := X + f.x, y := Y + f.y } : Rect)) ≠ [] := by
      intro he
      apply hrn
      have := congrArg List.length he
      simpa using List.length_eq_zero.mp (by simpa using this)
    have hw2 : ∀ f ∈ relFrames0.map fun f => ({ f with x := X + f.x, y := Y + f.y } : Rect),
        0 ≤ f.width := by
      intro f hf
      obtain ⟨g, hg, rfl⟩ := List.mem_map.mp hf
      exact hrw g hg
    have hh2 : ∀ f ∈ relFrames0.map fun f => ({ f with x := X + f.x, y := Y + f.y } : Rect),
        0 ≤ f.height := by
      intro f hf
      obtain ⟨g, hg, rfl⟩ := List.mem_map.mp hf
      exact hrh g hg
    have hsz := sectionPipeline_size msg
      (relFrames0.map fun f => { f with x := X + f.x, y := Y + f.y }) hn2 hpl hpt hw2 hh2
    exact hsz

/-- C5 (witness): the size round-trip theorem applied to the spec's worked
example (three 100×100 rectangles, padding 80, spacing 10) for Create, and
to a one-member section for Update. -/
theorem section_size_roundtrip_witness :
    sizeSpec (createSection ⟨⟨80, 80, 80, 80⟩, 10, .horizontal, .top⟩
      [⟨0, 0, 100, 100⟩, ⟨110, 0, 100, 100⟩, ⟨220, 0, 100, 100⟩])
      ⟨⟨80, 80, 80, 80⟩, 10, .horizontal, .top⟩ ∧
    sizeSpec (updateSection ⟨⟨80, 80, 80, 80⟩, 10, .horizontal, .top⟩ 5 7 [⟨3, 4, 10, 10⟩])
      ⟨⟨80, 80, 80, 80⟩, 10, .horizontal, .top⟩ :=
  section_size_roundtrip ⟨⟨80, 80, 80, 80⟩, 10, .horizontal, .top⟩
    [⟨0, 0, 100, 100⟩, ⟨110, 0, 100, 100⟩, ⟨220, 0, 100, 100⟩] [⟨3, 4, 10, 10⟩] 5 7
    (by decide) (by decide) (by norm_num) (by norm_num)
    (by decide) (by decide) (by decide) (by decide)

/-! ### Claim C4 -/

theorem placeH_chain_gap (s : ℚ) (al : Align) (bY : ℚ) :
    ∀ (cx : ℚ) (l : List Rect),
      (placeH s al bY cx l).Chain' (fun a b => b.x - (a.x + a.width) = s) := by
  intro cx l
  induction l generalizing cx with
  | nil => exact List.chain'_nil
  | cons f t ih =>
    cases t with
    | nil => exact List.chain'_singleton _
    | cons g u =>
      rw [placeH, placeH]
      refine List.Chain'.cons (by simp) ?_
      have := ih (cx + f.width + s)
      rw [placeH] at this
      exact this

/-- C4: arranging any non-empty rectangle set horizontally with gap `g`
(ordering by current `x` ascending) makes the horizontal gap
`next.x - (prev.x + prev.width)` between every consecutive pair of arranged
rectangles exactly `g`. -/
theorem arrange_horizontal_exact_gaps (frames : List Rect) (g startX startY : ℚ)
    (alignment : Align) (hn : frames ≠ []) :
    (arrangeFramesHorizontal frames g startX startY alignment).Chain'
      (fun a b => b.x - (a.x + a.width) = g) :=
  placeH_chain_gap g alignment _ startX _

/-- C4 (witness): the exact-gap theorem applied to two concrete rectangles
with gap 10. -/
theorem arrange_horizontal_exact_gaps_witness :
    (arrangeFramesHorizontal [⟨0, 0, 5, 5⟩, ⟨20, 0, 7, 5⟩] 10 0 0 .top).Chain'
      (fun a b => b.x - (a.x + a.width) = 10) :=
  arrange_horizontal_exact_gaps [⟨0, 0, 5, 5⟩, ⟨20, 0, 7, 5⟩] 10 0 0 .top (by decide)

/-! ### Claim C1 -/

theorem headI_mem_q {l : List ℚ} (h : l ≠ []) : l.headI ∈ l := by
  match l, h with
  | a :: t, _ => exact List.mem_cons_self _ _

theorem pairGapsX_nonneg : ∀ (l : List Rect), ∀ g ∈ pairGapsX l, 0 ≤ g := by
  intro l
  induction l with
  | nil => intro g hg; cases hg
  | cons a t ih =>
    cases t with
    | nil => intro g hg; cases hg
    | cons b u =>
      intro g hg
      rw [pairGapsX] at hg
      rcases List.mem_append.mp hg with h | h
      · split at h
        · rcases List.mem_singleton.mp h with rfl
          assumption
        · cases h
      · exact ih g h

theorem rowGapsH_nonneg (row : List Rect) : ∀ g ∈ rowGapsH row, 0 ≤ g := by
  intro g hg
  rw [rowGapsH] at hg
  split at hg
  · cases hg
  · exact pairGapsX_nonneg _ g hg

theorem horizontalSpacings_nonneg (rows : List (List Rect)) :
    ∀ g ∈ horizontalSpacings rows, 0 ≤ g := by
  intro g hg
  rw [horizontalSpacings] at hg
  obtain ⟨l, hl, hgl⟩ := List.mem_flatten.mp hg
  obtain ⟨row, _, rfl⟩ := List.mem_map.mp hl
  exact rowGapsH_nonneg row g hgl

theorem verticalSpacings_nonneg : ∀ (rows : List (List Rect)), ∀ g ∈ verticalSpacings rows, 0 ≤ g := by
  intro rows
  induction rows with
  | nil => intro g hg; cases hg
  | cons r1 t ih =>
    cases t with
    | nil => intro g hg; cases hg
    | cons r2 u =>
      intro g hg
      rw [verticalSpacings] at hg
      rcases List.mem_append.mp hg with h | h
      · split at h
        · rcases List.mem_singleton.mp h with rfl
          assumption
        · cases h
      · exact ih g h

theorem allSpacings_nonneg (frames : List Rect) : ∀ g ∈ allSpacings frames, 0 ≤ g := by
  intro g hg
  rcases List.mem_append.mp hg with h | h
  · exact horizontalSpacings_nonneg _ g h
  · exact verticalSpacings_nonneg _ g h

/-- C1: whenever at least 2 rectangles are given, their merged gap list
(non-negative horizontal within-row gaps followed by non-negative vertical
between-row gaps) is non-empty, and every gap is within 2 units of the first
gap, `detectSpacing` returns the first gap rounded to the nearest integer —
including when that common value is 0. -/
theorem detectSpacing_uniform (frames : List Rect)
    (h2 : 2 ≤ frames.length)
    (hne : allSpacings frames ≠ [])
    (huni : ∀ g ∈ allSpacings frames, |g - (allSpacings frames).headI| ≤ 2) :
    detectSpacing frames = some (jround ((allSpacings frames).headI)) := by
  have hnl : ¬ frames.length < 2 := by omega
  have h0 : 0 ≤ (allSpacings frames).headI :=
    allSpacings_nonneg frames _ (headI_mem_q hne)
  have hie : ¬ ((allSpacings frames).isEmpty = true) := by
    simpa [List.isEmpty_iff] using hne
  have hall : ((allSpacings frames).all
      fun s => decide (|s - (allSpacings frames).headI| ≤ 2)) = true :=
    List.all_eq_true.mpr fun s hs => decide_eq_true (huni s hs)
  unfold detectSpacing
  rw [if_neg hnl, if_neg hie, if_pos ⟨hall, h0⟩]

/-- C1 (witness): two 100-wide rectangles at `x = 0` and `x = 110` have the
uniform gap list `[10]`, and `detectSpacing` returns `round 10 = 10`. -/
theorem detectSpacing_uniform_witness :
    detectSpacing [⟨0, 0, 100, 100⟩, ⟨110, 0, 100, 100⟩]
      = some (jround ((allSpacings [⟨0, 0, 100, 100⟩, ⟨110, 0, 100, 100⟩]).headI)) :=
  detectSpacing_uniform [⟨0, 0, 100, 100⟩, ⟨110, 0, 100, 100⟩]
    (by decide) (by decide) (by decide)

/-! ### Claim C9 -/

theorem foldl_add_eq_sum : ∀ (l : List ℚ) (b : ℚ), l.foldl (· + ·) b = b + l.sum := by
  intro l
  induction l with
  | nil => intro b; simp
  | cons a t ih =>
    intro b
    simp only [List.foldl_cons, List.sum_cons, ih]
    ring

theorem topsAligned_iff (frames : List Rect) (hn : frames ≠ []) :
    ((frames.map (·.y)).all fun v => decide (|v - (frames.map (·.y)).headI| ≤ 2)) = true
      ↔ topsAligned frames := by
  match frames, hn with
  | f :: t, _ =>
    simp [List.all_eq_true, topsAligned, List.forall_mem_map, List.headI]

theorem bottomsAligned_iff (frames : List Rect) (hn : frames ≠ []) :
    ((frames.map fun f => f.y + f.height).all fun v =>
        decide (|v - ((frames.map fun f => f.y + f.height)).headI| ≤ 2)) = true
      ↔ bottomsAligned frames := by
  match frames, hn with
  | f :: t, _ =>
    simp [List.all_eq_true, bottomsAligned, List.forall_mem_map, List.headI]

theorem centersAligned_iff (frames : List Rect) :
    ((frames.map fun f => f.y + f.height / 2).all fun v =>
        decide (|v - (frames.map fun f => f.y + f.height / 2).foldl (· + ·) 0
          / (((frames.map fun f => f.y + f.height / 2)).length : ℚ)| ≤ 2)) = true
      ↔ centersAligned frames := by
  have hsum : (frames.map fun f => f.y + f.height / 2).foldl (· + ·) 0
      = (frames.map fun f => f.y + f.height / 2).sum := by
    rw [foldl_add_eq_sum]
    ring
  rw [List.all_eq_true]
  simp only [hsum, List.length_map, decide_eq_true_eq, List.forall_mem_map]
  exact Iff.rfl

/-- C9: for at least 2 rectangles whose bounding-box width exceeds 1.2 times
its height, the classifier reports horizontal layout with the first matching
alignment in the order top (all tops within 2 of the first rectangle's top),
bottom (all bottoms within 2 of the first rectangle's bottom), center (all
vertical centers within 2 of their arithmetic mean), defaulting to top. -/
theorem classify_horizontal (frames : List Rect)
    (h2 : 2 ≤ frames.length)
    (hasp : (maxYOf frames - minYOf frames) * 1.2 < maxXOf frames - minXOf frames) :
    detectLayoutAndAlignment frames =
      if topsAligned frames then ⟨.horizontal, .top⟩
      else if bottomsAligned frames then ⟨.horizontal, .bottom⟩
      else if centersAligned frames then ⟨.horizontal, .center⟩
      else ⟨.horizontal, .top⟩ := by
  have hnl : ¬ frames.length < 2 := by omega
  have hn : frames ≠ [] := by
    intro h
    rw [h] at h2
    simp at h2
  unfold detectLayoutAndAlignment
  rw [if_neg hnl, if_pos hasp]
  by_cases ht : topsAligned frames
  · rw [if_pos ((topsAligned_iff frames hn).mpr ht), if_pos ht]
  · rw [if_neg (fun hc => ht ((topsAligned_iff frames hn).mp hc)), if_neg ht]
    by_cases hb : bottomsAligned frames
    · rw [if_pos ((bottomsAligned_iff frames hn).mpr hb), if_pos hb]
    · rw [if_neg (fun hc => hb ((bottomsAligned_iff frames hn).mp hc)), if_neg hb]
      by_cases hcn : centersAligned frames
      · rw [if_pos ((centersAligned_iff frames).mpr hcn), if_pos hcn]
      · rw [if_neg (fun hc => hcn ((centersAligned_iff frames).mp hc)), if_neg hcn]

/-- C9 (witness): two wide rectangles with coinciding tops classify as
`(horizontal, top)`. -/
theorem classify_horizontal_witness :
    detectLayoutAndAlignment [⟨0, 0, 100, 10⟩, ⟨150, 0, 100, 10⟩] =
      if topsAligned [⟨0, 0, 100, 10⟩, ⟨150, 0, 100, 10⟩] then ⟨.horizontal, .top⟩
      else if bottomsAligned [⟨0, 0, 100, 10⟩, ⟨150, 0, 100, 10⟩] then ⟨.horizontal, .bottom⟩
      else if centersAligned [⟨0, 0, 100, 10⟩, ⟨150, 0, 100, 10⟩] then ⟨.horizontal, .center⟩
      else ⟨.horizontal, .top⟩ :=
  classify_horizontal [⟨0, 0, 100, 10⟩, ⟨150, 0, 100, 10⟩] (by decide) (by decide)

/-! ### Claims C6 and C7 -/

/-- C6: Refresh on a container with no persisted configuration fails with
`NoStoredConfigurationError` and returns the document state untouched; it
never falls back to detection. In the source, the early return at
src/code.ts:874-878 precedes every mutation of rectangle positions, container
geometry, parent relationships, or stored data. -/
theorem refresh_without_stored_config_fails (sec : SectionState) (h : sec.stored = none) :
    handleRefreshSection sec = (some .noStoredConfiguration, sec) := by
  unfold handleRefreshSection
  rw [h]

/-- C6 (witness): the no-configuration refresh failure on a concrete
section. -/
theorem refresh_without_stored_config_fails_witness :
    handleRefreshSection ⟨0, 0, 100, 100, [⟨10, 10, 20, 20⟩], none⟩
      = (some .noStoredConfiguration, ⟨0, 0, 100, 100, [⟨10, 10, 20, 20⟩], none⟩) :=
  refresh_without_stored_config_fails ⟨0, 0, 100, 100, [⟨10, 10, 20, 20⟩], none⟩ rfl

/-- C7: when the persisted blob fails to deserialize, Update does not abort —
it falls back to running spacing/layout detection and padding computation on
the current member geometry (`detectInit`) — whereas Refresh aborts with
`MalformedStoredConfigurationError`, returning the state untouched. -/
theorem malformed_config_update_soft_refresh_hard (sec : SectionState)
    (hm : sec.stored = some .malformed) (hf : sec.frames ≠ []) :
    handleUpdateSection sec = .ok (detectInit sec) ∧
    handleRefreshSection sec = (some .malformedStoredConfiguration, sec) := by
  have hie : ¬ (sec.frames.isEmpty = true) := by
    simpa [List.isEmpty_iff] using hf
  constructor
  · unfold handleUpdateSection
    rw [if_neg hie, hm]
  · unfold handleRefreshSection
    rw [hm]

/-- C7 (witness): the malformed-blob behaviors on a concrete section with two
members. -/
theorem malformed_config_update_soft_refresh_hard_witness :
    handleUpdateSection ⟨0, 0, 300, 120, [⟨10, 10, 100, 100⟩, ⟨120, 10, 100, 100⟩], some .malformed⟩
        = .ok (detectInit ⟨0, 0, 300, 120, [⟨10, 10, 100, 100⟩, ⟨120, 10, 100, 100⟩], some .malformed⟩) ∧
    handleRefreshSection ⟨0, 0, 300, 120, [⟨10, 10, 100, 100⟩, ⟨120, 10, 100, 100⟩], some .malformed⟩
        = (some .malformedStoredConfiguration,
           ⟨0, 0, 300, 120, [⟨10, 10, 100, 100⟩, ⟨120, 10, 100, 100⟩], some .malformed⟩) :=
  malformed_config_update_soft_refresh_hard
    ⟨0, 0, 300, 120, [⟨10, 10, 100, 100⟩, ⟨120, 10, 100, 100⟩], some .malformed⟩
    rfl (by decide)

/-! ### Claim C10 -/

theorem findParentSection_eq_head_filter (l : List DocNode) :
    findParentSection l = (l.filter fun m => decide (m.kind = NodeKind.section)).head? := by
  induction l with
  | nil => rfl
  | cons n rest ih =>
    by_cases h : n.kind = NodeKind.section
    · rw [findParentSection, if_pos h, List.filter_cons_of_pos (by simpa using h)]
      rfl
    · rw [findParentSection, if_neg h, ih, List.filter_cons_of_neg (by simpa using h)]

/-- C10: when the selected node is not itself a section but sits inside more
than one section, Update/Refresh target the nearest enclosing section — the
first section on the upward parent chain — not any outer one. -/
theorem target_is_nearest_enclosing_section (n : DocNode) (ancestors : List DocNode)
    (hn : ¬ (n.kind = NodeKind.section))
    (s1 s2 : DocNode) (rest : List DocNode)
    (hs : ancestors.filter (fun m => decide (m.kind = NodeKind.section)) = s1 :: s2 :: rest) :
    findParentSection (n :: ancestors) = some s1 ∧
    ∀ m ∈ s2 :: rest, m ≠ s1 → findParentSection (n :: ancestors) ≠ some m := by
  have h1 : findParentSection (n :: ancestors) = some s1 := by
    rw [findParentSection_eq_head_filter, List.filter_cons_of_neg (by simpa using hn), hs]
    rfl
  refine ⟨h1, fun m hm hne hc => hne ?_⟩
  rw [h1] at hc
  exact (Option.some_inj.mp hc).symm

/-- C10 (witness): a non-section node nested inside two sections resolves to
the inner one (id 1), not the outer one (id 3). -/
theorem target_is_nearest_enclosing_section_witness :
    findParentSection (⟨0, .other⟩ :: [⟨1, .section⟩, ⟨2, .other⟩, ⟨3, .section⟩])
        = some ⟨1, .section⟩ ∧
    ∀ m ∈ [(⟨3, .section⟩ : DocNode)], m ≠ ⟨1, .section⟩ →
      findParentSection (⟨0, .other⟩ :: [⟨1, .section⟩, ⟨2, .other⟩, ⟨3, .section⟩]) ≠ some m :=
  target_is_nearest_enclosing_section ⟨0, .other⟩ [⟨1, .section⟩, ⟨2, .other⟩, ⟨3, .section⟩]
    (by decide) ⟨1, .section⟩ ⟨3, .section⟩ [] (by decide)

/-! ### Claim C8 -/

theorem groupRowsAux_eq : ∀ (rest : List Rect) (rowY : ℚ) (cur : List Rect)
    (acc : List (List Rect)), cur ≠ [] →
    groupRowsAux rowY cur acc rest
      = acc ++ (cur ++ (clusterAux rowY rest).1) :: (clusterAux rowY rest).2 := by
  intro rest
  induction rest with
  | nil =>
    intro rowY cur acc hcur
    rw [groupRowsAux, clusterAux]
    simp [List.isEmpty_iff, hcur]
  | cons g gs ih =>
    intro rowY cur acc hcur
    rw [groupRowsAux, clusterAux]
    by_cases h : |g.y - rowY| < 10
    · rw [if_pos h, if_pos h, ih rowY (cur ++ [g]) acc (by simp)]
      simp
    · rw [if_neg h, if_neg h, ih g.y [g] _ (by simp)]
      simp [List.isEmpty_iff, hcur]

/-- C8 (amended): `detectSpacing`'s row clustering is a single pass over the
rectangles in the order of a stable sort under the source's fuzzy comparator
(compare by `x` when the `y`s are within 10 units, else by `y`) — not in
(y, x)-lexicographic order — and a rectangle joins the current row exactly
when its `y` is within 10 units of the row's first member's `y`, else it
starts a new row referenced at its own `y` (`clusterRows` is this join rule
stated directly). -/
theorem rows_single_pass_group_rule (frames : List Rect) :
    rowsOf frames = clusterRows (frames.insertionSort lePos) := by
  rw [rowsOf]
  cases h : frames.insertionSort lePos with
  | nil => rfl
  | cons f fs =>
    rw [groupRows, clusterRows, groupRowsAux,
      if_pos (by simp : |f.y - f.y| < (10 : ℚ)),
      groupRowsAux_eq fs f.y ([] ++ [f]) [] (by simp)]
    simp

/-- C8 (counterexample): for the rectangles `(x,y) = (10,0), (0,9), (5,18)`
(all 1×1), the claim's reading — cluster in (y, x)-lexicographic order —
yields the two rows `[[(10,0),(0,9)], [(5,18)]]`, but `detectSpacing`
actually sorts with the fuzzy comparator, visits them in the order
`(0,9), (10,0), (5,18)`, and produces the single row containing all three:
the pass is not in (y, x)-sorted order. -/
theorem rows_not_lex_sorted :
    rowsOf [⟨10, 0, 1, 1⟩, ⟨0, 9, 1, 1⟩, ⟨5, 18, 1, 1⟩]
      ≠ clusterRows (([⟨10, 0, 1, 1⟩, ⟨0, 9, 1, 1⟩, ⟨5, 18, 1, 1⟩] : List Rect).insertionSort
          leLexYX) := by
  decide

/-! ### Claim C2 -/

theorem mem_bucketKeys {gaps : List ℚ} {k : ℤ} (h : 0 < bucketCount gaps k) :
    k ∈ bucketKeys gaps := by
  rw [bucketKeys, List.mem_insertionSort, List.mem_dedup]
  rw [bucketCount, List.countP_pos] at h
  obtain ⟨g, hg, hp⟩ := h
  have he : jround g = k := of_decide_eq_true hp
  exact he ▸ List.mem_map_of_mem jround hg

/-- Full characterization of the nonzero-bucket scan of src/code.ts:266-281:
starting from a champion `b` of count `n` (or no champion and `n = 0`), it
returns the champion unchanged when no listed key beats it, or else some
listed qualifying key of maximal count among the listed qualifying keys. -/
theorem bestNZStrict_go (gaps : List ℚ) : ∀ (keys : List ℤ) (b : Option ℤ) (n : Nat),
    (b = none → n = 0) →
    (∀ j, b = some j → qualifiesNZ gaps j ∧ bucketCount gaps j = n) →
    (bestNZStrict gaps keys b n = b ∧
      ∀ j ∈ keys, qualifiesNZ gaps j → bucketCount gaps j ≤ n) ∨
    (∃ k, k ∈ keys ∧ bestNZStrict gaps keys b n = some k ∧ qualifiesNZ gaps k ∧
      n ≤ bucketCount gaps k ∧
      ∀ j ∈ keys, qualifiesNZ gaps j → bucketCount gaps j ≤ bucketCount gaps k) := by
  intro keys
  induction keys with
  | nil =>
    intro b n _ _
    refine Or.inl ⟨rfl, ?_⟩
    intro j hj
    cases hj
  | cons k ks ih =>
    intro b n hb0 hbs
    rw [bestNZStrict]
    by_cases hcond : 0 < k ∧ n < bucketCount gaps k ∧ 2 ≤ bucketCount gaps k
        ∧ (gaps.length : ℚ) * 0.05 ≤ (bucketCount gaps k : ℚ)
    · rw [if_pos hcond]
      have hq : qualifiesNZ gaps k := ⟨hcond.1, hcond.2.2.1, hcond.2.2.2⟩
      have hbs2 : ∀ j, (some k : Option ℤ) = some j →
          qualifiesNZ gaps j ∧ bucketCount gaps j = bucketCount gaps k := by
        intro j hj
        injection hj with hj
        subst hj
        exact ⟨hq, rfl⟩
      rcases ih (some k) (bucketCount gaps k) (by intro h; cases h) hbs2 with
        ⟨heq, hmax⟩ | ⟨k2, hk2m, heq, hq2, hge, hmax⟩
      · right
        refine ⟨k, List.mem_cons_self _ _, heq, hq, le_of_lt hcond.2.1, ?_⟩
        intro j hj hqj
        rcases List.mem_cons.mp hj with rfl | hj
        · exact le_refl _
        · exact hmax j hj hqj
      · right
        refine ⟨k2, List.mem_cons_of_mem _ hk2m, heq, hq2,
          le_trans (le_of_lt hcond.2.1) hge, ?_⟩
        intro j hj hqj
        rcases List.mem_cons.mp hj with rfl | hj
        · exact hge
        · exact hmax j hj hqj
    · rw [if_neg hcond]
      have hjk : ∀ j, j = k → qualifiesNZ gaps j → bucketCount gaps j ≤ n := by
        rintro j rfl hqj
        by_contra hlt
        push_neg at hlt
        exact hcond ⟨hqj.1, hlt, hqj.2.1, hqj.2.2⟩
      rcases ih b n hb0 hbs with ⟨heq, hmax⟩ | ⟨k2, hk2m, heq, hq2, hge, hmax⟩
      · left
        refine ⟨heq, ?_⟩
        intro j hj hqj
        rcases List.mem_cons.mp hj with rfl | hj
        · exact hjk j rfl hqj
        · exact hmax j hj hqj
      · right
        refine ⟨k2, List.mem_cons_of_mem _ hk2m, heq, hq2, hge, ?_⟩
        intro j hj hqj
        rcases List.mem_cons.mp hj with rfl | hj
        · exact le_trans (hjk j rfl hqj) hge
        · exact hmax j hj hqj

/-- C2 (amended): in the mode-seeking fallback, when the gap list is not
uniform, the winning bucket is the zero bucket with a share of at least 20%
**but less than 50%** of all gaps, and some nonzero bucket has at least 2
members and at least a 5% share, `detectSpacing` returns the value of a
qualifying nonzero bucket of maximal member count instead of 0. (The source
keeps 0 whenever the zero bucket holds at least half of all gaps —
src/code.ts:265 — a condition the original claim omits.) -/
theorem detect_mode_zero_override (frames : List Rect)
    (h2 : 2 ≤ frames.length)
    (hne : allSpacings frames ≠ [])
    (hnotuni : ¬ ∀ g ∈ allSpacings frames, |g - (allSpacings frames).headI| ≤ 2)
    (hmc : (mostCommon (allSpacings frames)).1 = some 0)
    (hshare : ((allSpacings frames).length : ℚ) * 0.2
      ≤ ((mostCommon (allSpacings frames)).2 : ℚ))
    (hhalf : ((mostCommon (allSpacings frames)).2 : ℚ)
      < ((allSpacings frames).length : ℚ) * 0.5)
    (hex : ∃ k, qualifiesNZ (allSpacings frames) k) :
    ∃ k, detectSpacing frames = some k ∧ qualifiesNZ (allSpacings frames) k ∧
      ∀ j, qualifiesNZ (allSpacings frames) j →
        bucketCount (allSpacings frames) j ≤ bucketCount (allSpacings frames) k := by
  have hnl : ¬ frames.length < 2 := by omega
  have hie : ¬ ((allSpacings frames).isEmpty = true) := by
    simpa [List.isEmpty_iff] using hne
  have huni : ¬ (((allSpacings frames).all
      fun s => decide (|s - (allSpacings frames).headI| ≤ 2)) = true
        ∧ 0 ≤ (allSpacings frames).headI) := by
    intro hcond
    exact hnotuni fun g hg => of_decide_eq_true (List.all_eq_true.mp hcond.1 g hg)
  have hsome : (mostCommon (allSpacings frames)).1.isSome = true := by
    rw [hmc]
    rfl
  have hdet : detectSpacing frames
      = match bestNZStrict (allSpacings frames) (bucketKeys (allSpacings frames)) none 0 with
        | some k => some k
        | none => (mostCommon (allSpacings frames)).1 := by
    unfold detectSpacing
    rw [if_neg hnl, if_neg hie, if_neg huni, if_pos ⟨hsome, hshare⟩, if_pos ⟨hmc, hhalf⟩]
  obtain ⟨k0, hk0⟩ := hex
  have hk0pos : 0 < bucketCount (allSpacings frames) k0 := by
    have := hk0.2.1
    omega
  have hk0mem : k0 ∈ bucketKeys (allSpacings frames) := mem_bucketKeys hk0pos
  rcases bestNZStrict_go (allSpacings frames) (bucketKeys (allSpacings frames)) none 0
      (fun _ => rfl) (by intro j hj; cases hj) with
    ⟨_, hmax⟩ | ⟨k, _, heq, hq, _, hmax⟩
  · exfalso
    have := hmax k0 hk0mem hk0
    omega
  · refine ⟨k, ?_, hq, ?_⟩
    · rw [hdet, heq]
    · intro j hqj
      have hjpos : 0 < bucketCount (allSpacings frames) j := by
        have := hqj.2.1
        omega
      exact hmax j (mem_bucketKeys hjpos) hqj

/-- C2 (counterexample): with gaps `[0,0,0,0,10,10]` the gap list is not
uniform, the winning bucket is 0 with share 4/6 ≥ 20%, and the nonzero
bucket 10 has 2 members and a 33% share — the claim then requires the value
10, but `detectSpacing` returns 0, because the zero bucket holds at least
50% of all gaps and the source only prefers a nonzero bucket below that
second, unstated threshold. -/
theorem detect_mode_zero_counterexample :
    (¬ ∀ g ∈ allSpacings c2frames, |g - (allSpacings c2frames).headI| ≤ 2) ∧
    (mostCommon (allSpacings c2frames)).1 = some 0 ∧
    ((allSpacings c2frames).length : ℚ) * 0.2 ≤ ((mostCommon (allSpacings c2frames)).2 : ℚ) ∧
    qualifiesNZ (allSpacings c2frames) 10 ∧
    detectSpacing c2frames = some 0 ∧ ¬ qualifiesNZ (allSpacings c2frames) 0 := by
  decide

/-- C2 (witness): on gaps `[0,0,5,10,10]` the zero bucket wins with a 40%
share, and the override picks the nonzero bucket 10 (2 members, maximal). -/
theorem detect_mode_zero_override_witness :
    ∃ k, detectSpacing c2wframes = some k ∧ qualifiesNZ (allSpacings c2wframes) k ∧
      ∀ j, qualifiesNZ (allSpacings c2wframes) j →
        bucketCount (allSpacings c2wframes) j ≤ bucketCount (allSpacings c2wframes) k :=
  detect_mode_zero_override c2wframes (by decide) (by decide) (by decide) (by decide)
    (by decide) (by decide) ⟨10, by decide⟩

end AutoSection
